import Mathlib

/-!
Verification development for the code-ferret keyword search engine
(src/src/CodeSearchEngine.ts, src/src/utils.ts).

The TypeScript source is shallowly embedded: strings become `List Char`
(JS `String.prototype` operations are translated on the ASCII fragment that
the regular expressions of the source use), JS `Map` objects become
association lists with the insertion-order update semantics of `Map.set`,
JS numbers holding the decimal score literals 0.01 / 0.005 / 0.3 / 0.2 / 0.1
become exact rationals, the file system becomes explicit inputs, and the
mutable engine object becomes explicit state passing.
-/

set_option autoImplicit false

attribute [local semireducible] Rat.mul Rat.add Rat.inv Rat.sub

namespace CF

/-- Text is modelled as a list of characters. -/
abbrev Str := List Char

/-- JS `String.prototype.toLowerCase`, on the ASCII fragment. -/
def lowerStr (s : Str) : Str := s.map Char.toLower

/-- JS regex `\w` (without the unicode flag): ASCII letter, digit or underscore. -/
def isWordChar (c : Char) : Bool := c.isAlpha || c.isDigit || c = '_'

/-- JS regex `\s`, restricted to the ASCII whitespace characters. -/
def isWsChar (c : Char) : Bool :=
  c = ' ' || c = '\t' || c = '\n' || c = '\x0d' || c = '\x0b' || c = '\x0c'

/-- `.replace(/[^\w\s]/g, ' ')` from `extractKeywords` (CodeSearchEngine.ts:52):
every character that is neither a word character nor whitespace becomes a space. -/
def replaceNonWord (s : Str) : Str :=
  s.map (fun c => if isWordChar c || isWsChar c then c else ' ')

/-- `.replace(/\s+/g, ' ')` (CodeSearchEngine.ts:53) with a flag recording
whether the previous character was whitespace: every maximal whitespace run
becomes one space. -/
def collapseWsAux : Bool → Str → Str
  | _, [] => []
  | inWs, c :: cs =>
    if isWsChar c then
      if inWs then collapseWsAux true cs else ' ' :: collapseWsAux true cs
    else c :: collapseWsAux false cs

/-- `.replace(/\s+/g, ' ')` (CodeSearchEngine.ts:53). -/
def collapseWs (s : Str) : Str := collapseWsAux false s

/-- JS `String.prototype.trim` (CodeSearchEngine.ts:54). -/
def trimStr (s : Str) : Str :=
  ((s.dropWhile isWsChar).reverse.dropWhile isWsChar).reverse

/-- `String.prototype.split(sep)` for a single-character separator; empty
fragments are kept, exactly as in JS. -/
def splitChar (sep : Char) : Str → List Str
  | [] => [[]]
  | c :: cs =>
    if c = sep then [] :: splitChar sep cs
    else
      match splitChar sep cs with
      | [] => [[c]]
      | t :: ts => (c :: t) :: ts

/-- Splitting on maximal whitespace runs, with the (reversed) current
fragment as accumulator. -/
def wsSplitAux : Str → Str → List Str
  | [], acc => if acc.isEmpty then [] else [acc.reverse]
  | c :: cs, acc =>
    if isWsChar c then
      if acc.isEmpty then wsSplitAux cs [] else acc.reverse :: wsSplitAux cs []
    else wsSplitAux cs (c :: acc)

/-- Split on maximal whitespace runs, dropping empty fragments.  This is
`String.prototype.split(/\s+/)` up to the leading/trailing empty fragments
that JS produces, which the callers below always discard by a length filter. -/
def wsSplit (s : Str) : List Str := wsSplitAux s []

/-- Occurrence counting with a skip counter: while the counter is positive
the scan moves on without attempting a match (the tail of the previous
match is being passed over). -/
def countOccurAux : Str → Str → Nat → Nat
  | [], _, _ => 0
  | _ :: cs, kw, Nat.succ n => countOccurAux cs kw n
  | c :: cs, kw, 0 =>
    if kw.isPrefixOf (c :: cs) then 1 + countOccurAux cs kw (kw.length - 1)
    else countOccurAux cs kw 0

/-- Count of non-overlapping leftmost occurrences of `kw`: the literal
reading of `code.match(new RegExp(keyword, 'g'))?.length`.  Theorem
`countMatches_lits` proves it equal to the count of the regex model below
for every nonempty token without regex metacharacters; for a token with
metacharacters the two differ (see the C2 counterexample). -/
def countOccur (s kw : Str) : Nat := countOccurAux s kw 0

/-- JS `Map` lookup on the association-list model. -/
def getA? {β : Type} : List (Str × β) → Str → Option β
  | [], _ => none
  | p :: ps, k => if p.1 = k then some p.2 else getA? ps k

/-- JS `Map.set`: update an existing key in place (keeping its insertion
position) or append a new key at the end. -/
def setA {β : Type} : List (Str × β) → Str → β → List (Str × β)
  | [], k, v => [(k, v)]
  | p :: ps, k, v => if p.1 = k then (k, v) :: ps else p :: setA ps k v

/-- `keywords.get(word) || 0`. -/
def getW (m : List (Str × Nat)) (k : Str) : Nat := (getA? m k).getD 0

/-- `keywords.set(word, (keywords.get(word) || 0) + d)`. -/
def bump (m : List (Str × Nat)) (k : Str) (d : Nat) : List (Str × Nat) :=
  setA m k (getW m k + d)

@[simp] theorem getA?_nil {β : Type} (k : Str) : getA? ([] : List (Str × β)) k = none := rfl

theorem getA?_setA {β : Type} (m : List (Str × β)) (k k' : Str) (v : β) :
    getA? (setA m k v) k' = if k' = k then some v else getA? m k' := by
  induction m with
  | nil =>
    by_cases h : k' = k
    · subst h; simp [setA, getA?]
    · simp [setA, getA?, h, Ne.symm h]
  | cons p ps ih =>
    by_cases hp : p.1 = k
    · by_cases h : k' = k
      · subst h; simp [setA, getA?, hp]
      · simp [setA, getA?, hp, h, Ne.symm h]
    · by_cases hq : p.1 = k'
      · have hne : k' ≠ k := fun hh => hp (hq.trans hh)
        simp [setA, getA?, hp, hq, hne]
      · simp [setA, getA?, hp, hq, ih]

theorem getW_bump (m : List (Str × Nat)) (k k' : Str) (d : Nat) :
    getW (bump m k d) k' = getW m k' + if k' = k then d else 0 := by
  unfold bump getW
  rw [getA?_setA]
  by_cases h : k' = k <;> simp [h]

/-- The `commonKeywords` set of `isCommonKeyword` (CodeSearchEngine.ts:91-98). -/
def commonKeywords : List Str :=
  ["if", "else", "for", "while", "do", "switch", "case", "break", "continue",
   "return", "try", "catch", "finally", "throw", "new", "delete", "typeof",
   "instanceof", "void", "this", "super", "class", "interface", "extends",
   "implements", "static", "public", "private", "protected", "const", "let",
   "var", "function", "async", "await", "import", "export", "from", "as",
   "true", "false", "null", "undefined", "NaN", "Infinity"].map String.toList

/-- `isCommonKeyword` (CodeSearchEngine.ts:90-101). -/
def isCommonKeyword (word : Str) : Bool := commonKeywords.any (fun k => k == word)

/-- The `normalizedCode` string of `extractKeywords` (CodeSearchEngine.ts:51-54):
lowercase, replace non-word non-space characters by spaces, collapse whitespace
runs, trim. -/
def normalizeText (code : Str) : Str :=
  trimStr (collapseWs (replaceNonWord (lowerStr code)))

/-- Steps 1-2 of extraction: the surviving tokens of
`normalizedCode.split(' ')` after the length/stoplist filter of
CodeSearchEngine.ts:60. -/
def extractionTokens (code : Str) : List Str :=
  (splitChar ' ' (normalizeText code)).filter
    (fun word => !(decide (word.length ≤ 2) || isCommonKeyword word))

/-- Maximal whitespace run at the front (regex `\s+`, greedy). -/
def wsRun (s : Str) : Str := s.takeWhile isWsChar

/-- Maximal word-character run at the front (regex `\w+`, greedy). -/
def wordRun (s : Str) : Str := s.takeWhile isWordChar

/-- The `\s+` part of a `class` match at the head of `s`. -/
def classWs (s : Str) : Str := wsRun (s.drop 5)

/-- The `\w+` part (the name) of a `class` match at the head of `s`. -/
def classWord (s : Str) : Str := wordRun ((s.drop 5).drop (classWs s).length)

/-- A match of `/class\s+(\w+)/` anchored at the head of `s`.  Greedy `\s+`
and `\w+` cannot backtrack productively here, because a shorter whitespace
run would put a whitespace character under `\w+`; so the match, when it
exists, is the literal `class`, the maximal whitespace run, and the maximal
word run, the latter two nonempty. -/
def classAt (s : Str) : Option Str :=
  if ("class".toList).isPrefixOf s ∧ classWs s ≠ [] ∧ classWord s ≠ [] then
    some (("class".toList) ++ classWs s ++ classWord s)
  else none

/-- Regex scan with a skip counter: while the counter is positive the scan
moves on without attempting a match (the tail of the previous match is being
passed over, since `lastIndex` jumps to the end of each match). -/
def classScanAux : Str → Nat → List Str
  | [], _ => []
  | _ :: cs, Nat.succ n => classScanAux cs n
  | c :: cs, 0 =>
    match classAt (c :: cs) with
    | some m => m :: classScanAux cs (m.length - 1)
    | none => classScanAux cs 0

/-- `code.match(/class\s+(\w+)/g)` (CodeSearchEngine.ts:68): the list of
matched substrings, scanning left to right without overlap. -/
def classScan (s : Str) : List Str := classScanAux s 0

/-- `match.replace('class ', '')` (CodeSearchEngine.ts:70): remove the first
occurrence of the literal pattern, if any. -/
def removeFirst (pat : Str) : Str → Str
  | [] => []
  | c :: cs =>
    if pat.isPrefixOf (c :: cs) then (c :: cs).drop pat.length
    else c :: removeFirst pat cs

/-- The `\s+` part of a `function ` match at the head of `s`. -/
def funcWs (s : Str) : Str := wsRun (s.drop 8)

/-- The `\w+` name of a `function ` match at the head of `s`. -/
def funcWord (s : Str) : Str := wordRun ((s.drop 8).drop (funcWs s).length)

/-- The `\w+` part of a `(\w+)\s*\(` match at the head of `s`. -/
def callWord (s : Str) : Str := wordRun s

/-- The `\s*` part of a `(\w+)\s*\(` match at the head of `s`. -/
def callWs (s : Str) : Str := wsRun (s.drop (callWord s).length)

/-- A match of `/function\s+(\w+)|(\w+)\s*\(/` anchored at the head of `s`:
alternative 1 is tried first; on its failure alternative 2 is tried at the
same position, exactly as the JS regex engine does.  In alternative 2 the
greedy `\w+` and `\s*` cannot backtrack productively: a shorter word run is
followed by a word character, which neither `\s*` nor `(` accepts, so the
match exists exactly when the maximal word run (nonempty) followed by the
maximal whitespace run is followed by an opening parenthesis. -/
def funcAt (s : Str) : Option Str :=
  if ("function".toList).isPrefixOf s ∧ funcWs s ≠ [] ∧ funcWord s ≠ [] then
    some (("function".toList) ++ funcWs s ++ funcWord s)
  else if callWord s ≠ [] ∧
      ((s.drop (callWord s).length).drop (callWs s).length).head? = some '(' then
    some (callWord s ++ callWs s ++ ['('])
  else none

/-- Skip-counter scan for the function pattern, as for `classScanAux`. -/
def funcScanAux : Str → Nat → List Str
  | [], _ => []
  | _ :: cs, Nat.succ n => funcScanAux cs n
  | c :: cs, 0 =>
    match funcAt (c :: cs) with
    | some m => m :: funcScanAux cs (m.length - 1)
    | none => funcScanAux cs 0

/-- `code.match(/function\s+(\w+)|(\w+)\s*\(/g)` (CodeSearchEngine.ts:74). -/
def funcScan (s : Str) : List Str := funcScanAux s 0

/-- One step of `match.replace(/function\s+|\s*\(/g, '')`
(CodeSearchEngine.ts:76), anchored at the head: alternative `function\s+`
first, then `\s*\(`; returns the number of characters the match deletes. -/
def funcStripAt (s : Str) : Option Nat :=
  if ("function".toList).isPrefixOf s ∧ wsRun (s.drop 8) ≠ [] then
    some (8 + (wsRun (s.drop 8)).length)
  else if (s.drop (wsRun s).length).head? = some '(' then
    some ((wsRun s).length + 1)
  else none

/-- Skip-counter pass deleting matches: while the counter is positive the
characters being passed over belong to the match being deleted and are
dropped. -/
def funcStripAux : Str → Nat → Str
  | [], _ => []
  | _ :: cs, Nat.succ n => funcStripAux cs n
  | c :: cs, 0 =>
    match funcStripAt (c :: cs) with
    | some k => funcStripAux cs (k - 1)
    | none => c :: funcStripAux cs 0

/-- `match.replace(/function\s+|\s*\(/g, '')` (CodeSearchEngine.ts:76):
delete every non-overlapping leftmost match of the pattern. -/
def funcStrip (s : Str) : Str := funcStripAux s 0

/-- `extractKeywords` (CodeSearchEngine.ts:47-83): token counts, then class
names with weight 10 (CodeSearchEngine.ts:68-72), then filtered function
names with weight 5 (CodeSearchEngine.ts:74-80). -/
def extractKeywords (code : Str) : List (Str × Nat) :=
  let normalizedCode := normalizeText code
  let words := splitChar ' ' normalizedCode
  let keywords := words.foldl
    (fun m word =>
      if decide (word.length ≤ 2) || isCommonKeyword word then m
      else bump m word 1) []
  let keywords := (classScan code).foldl
    (fun m mt => bump m (lowerStr (removeFirst ("class ".toList) mt)) 10) keywords
  (funcScan code).foldl
    (fun m mt =>
      let functionName := lowerStr (funcStrip mt)
      if decide (2 < functionName.length) && !isCommonKeyword functionName then
        bump m functionName 5
      else m)
    keywords

/-- `query.toLowerCase().split(/\s+/).filter(k => k.length > 2)`
(CodeSearchEngine.ts:245); the empty fragments JS `split(/\s+/)` can produce
are removed by the length filter either way. -/
def queryTokens (query : Str) : List Str :=
  (wsSplit (lowerStr query)).filter (fun k => decide (2 < k.length))

/-- JS `String.prototype.includes`: `strIncludes hay pat` is true when `pat`
occurs contiguously inside `hay`. -/
def strIncludes : Str → Str → Bool
  | [], pat => pat.isEmpty
  | c :: cs, pat => pat.isPrefixOf (c :: cs) || strIncludes cs pat

/-- One `CodeMetadata` record (CodeSearchEngine.ts:7-12).  The `keywords`
field is the canonical association-list form of the JS `Map` (the serialized
pair-array alternative denotes the same mapping); the checksum is computed
and stored but never read back, so its hash function is modelled as the
identity on the content. -/
structure CodeMetadata where
  file : Str
  code : Str
  keywords : List (Str × Nat)
  checksum : Str
deriving DecidableEq, Repr

instance exceptDecEq {ε α : Type} [DecidableEq ε] [DecidableEq α] :
    DecidableEq (Except ε α) := fun a b =>
  match a, b with
  | .error e1, .error e2 =>
    if h : e1 = e2 then .isTrue (by rw [h])
    else .isFalse (fun hc => h (Except.error.inj hc))
  | .error _, .ok _ => .isFalse (fun hc => Except.noConfusion hc)
  | .ok _, .error _ => .isFalse (fun hc => Except.noConfusion hc)
  | .ok v1, .ok v2 =>
    if h : v1 = v2 then .isTrue (by rw [h])
    else .isFalse (fun hc => h (Except.ok.inj hc))

/-- The error taxonomy of the engine: `NoFilesFound` for the two build-time
throws (CodeSearchEngine.ts:168,173), `NoIndexedFiles` for the search-time
throw (CodeSearchEngine.ts:350); each carries the raw directory argument
that the JS error message interpolates. -/
inductive EngineError where
  | noFilesFound (directory : Str)
  | noIndexedFiles (directory : Str)
deriving DecidableEq, Repr

/-- `metadata.some(item => ...)` (CodeSearchEngine.ts:259-263): PREBUILT mode
is chosen exactly when some record has a non-empty term map. -/
def hasKeywordIndices (metadata : List CodeMetadata) : Bool :=
  metadata.any (fun item => decide (0 < item.keywords.length))

/-- The PREBUILT score of one file (CodeSearchEngine.ts:272-289): for each
query token, the indexed weight times 0.01, plus, for each indexed entry that
contains the token as a strict substring, its weight times 0.005. -/
def prebuiltFileScore (tokens : List Str) (kmap : List (Str × Nat)) : ℚ :=
  tokens.foldl
    (fun score keyword =>
      kmap.foldl
        (fun s p =>
          if strIncludes p.1 keyword && !(p.1 == keyword) then s + (p.2 : ℚ) * (5 / 1000)
          else s)
        (score + (getW kmap keyword : ℚ) * (1 / 100)))
    0

/-- `.test` of the FALLBACK regex `class\s+\w*KW\w*` with the `i` flag
against the already-lowercased code (CodeSearchEngine.ts:312), in the
literal reading where the interpolated token `KW` matches itself: some
position starts with `class`, a nonempty whitespace run, and the token after
at most the maximal word run (the trailing `\w*` always matches empty).
Theorem `rtest_classWrap` proves this equal to `.test` of the regex model
below for every nonempty lowercase token without metacharacters and without
whitespace — the shape of every query token. -/
def classPattern (code kw : Str) : Bool :=
  (List.range (code.length + 1)).any fun p =>
    ("class".toList).isPrefixOf (code.drop p) &&
      (decide (0 < (wsRun (code.drop (p + 5))).length) &&
        (List.range ((wordRun ((code.drop (p + 5)).drop
            (wsRun (code.drop (p + 5))).length)).length + 1)).any fun k =>
          kw.isPrefixOf (((code.drop (p + 5)).drop
            (wsRun (code.drop (p + 5))).length).drop k))

/-- `.test` of the FALLBACK regex `function\s+\w*KW\w*|\w*KW\w*\s*\(`
(CodeSearchEngine.ts:313) in the literal reading of the token, proven
against the regex model in `rtest_funcWrap`.  For the second alternative the
leading `\w*` is absorbed into the choice of position: a match with a
nonempty leading word part is also a match starting right at the token. -/
def functionPattern (code kw : Str) : Bool :=
  ((List.range (code.length + 1)).any fun p =>
    ("function".toList).isPrefixOf (code.drop p) &&
      (decide (0 < (wsRun (code.drop (p + 8))).length) &&
        (List.range ((wordRun ((code.drop (p + 8)).drop
            (wsRun (code.drop (p + 8))).length)).length + 1)).any fun k =>
          kw.isPrefixOf (((code.drop (p + 8)).drop
            (wsRun (code.drop (p + 8))).length).drop k)))
  || ((List.range (code.length + 1)).any fun p =>
    kw.isPrefixOf (code.drop p) &&
      (let rest := (code.drop p).drop kw.length
       let rest2 := rest.drop (wordRun rest).length
       (rest2.drop (wsRun rest2).length).head? = some '('))

/-- `.test` of the FALLBACK regex `\/\/.*KW|\*.*KW` (CodeSearchEngine.ts:314)
in the literal reading of the token, proven against the regex model in
`rtest_commentWrap`: the token occurs after `//` or after `*` with no line
break in between (`.` does not match line terminators in JS). -/
def commentPattern (code kw : Str) : Bool :=
  (List.range (code.length + 1)).any fun p =>
    (("//".toList).isPrefixOf (code.drop p) &&
      strIncludes (((code.drop p).drop 2).takeWhile (fun c => !(c = '\n' || c = '\x0d'))) kw)
    || ((code.drop p).head? = some '*' &&
      strIncludes (((code.drop p).drop 1).takeWhile (fun c => !(c = '\n' || c = '\x0d'))) kw)

/-- The FALLBACK score of one file (CodeSearchEngine.ts:299-320) in the
literal reading of the dynamically built regexes: the code is lowercased
once; for each query token with at least one occurrence, the occurrence
count times 0.01 is added, and each of the three structural boosts is added
at most once.  This is exactly what the source computes whenever the tokens
contain no regex metacharacters (theorem `fallbackItemScoreRx_plain`); the
faithful general model, on which a metacharacter token follows regex
semantics and an invalid token throws, is `fallbackItemScoreRx` below. -/
def fallbackItemScore (tokens : List Str) (rawCode : Str) : ℚ :=
  tokens.foldl
    (fun score keyword =>
      let n := countOccur (lowerStr rawCode) keyword
      if n ≠ 0 then
        let s1 := score + (n : ℚ) * (1 / 100)
        let s2 := if classPattern (lowerStr rawCode) keyword then s1 + 3 / 10 else s1
        let s3 := if functionPattern (lowerStr rawCode) keyword then s2 + 2 / 10 else s2
        if commentPattern (lowerStr rawCode) keyword then s3 + 1 / 10 else s3
      else score)
    0

/-- The shared accumulation loop of both `keywordSearch` branches
(CodeSearchEngine.ts:269-294 and 299-325): files scoring 0 are not entered
into the scores map. -/
def accumulateScores (score : CodeMetadata → ℚ) (metadata : List CodeMetadata) :
    List (Str × ℚ) :=
  metadata.foldl
    (fun scores item =>
      if 0 < score item then setA scores item.file (score item) else scores)
    []

/-- `keywordSearch` (CodeSearchEngine.ts:244-329), with the FALLBACK branch
in the literal reading of the token regexes: the restriction of the source
to queries whose tokens carry no regex metacharacters.  `keywordSearchRx`
below is the faithful fallible model, and `keywordSearchRx_plain` proves the
two agree on that restriction (the PREBUILT branch and the empty-token case
involve no regexes at all). -/
def keywordSearch (query : Str) (metadata : List CodeMetadata) : List (Str × ℚ) :=
  let queryKeywords := queryTokens query
  if queryKeywords.isEmpty then []
  else if hasKeywordIndices metadata then
    accumulateScores (fun item => prebuiltFileScore queryKeywords item.keywords) metadata
  else
    accumulateScores (fun item => fallbackItemScore queryKeywords item.code) metadata

/-! ### The regex model of the FALLBACK scorer

The FALLBACK branch builds its regexes dynamically from the raw query token
(`new RegExp(keyword, 'g')` at CodeSearchEngine.ts:305 and the interpolated
boost patterns at CodeSearchEngine.ts:312-314), so the token's regex
metacharacters are active syntax there.  The definitions below model a
fragment of JS regexes large enough to cover the boost templates and every
token built from literal characters, `.`, escapes, greedy quantifiers on
single-character atoms, and alternation; a token outside the fragment is
flagged `unsupported` (the model asserts nothing about it), and a token on
which the JS constructor throws a `SyntaxError` is flagged `invalid`. -/

/-- A single-character matcher of the modelled JS regex fragment: a literal
character, the dot, or one of the character classes `\w`, `\s`, `\d`. -/
inductive CharCls where
  | lit (c : Char)
  | dot
  | wordc
  | spacec
  | digitc
deriving DecidableEq, Repr

/-- One atom of a regex alternative: a single-character matcher, bare or
under a greedy quantifier. -/
inductive RAtom where
  | ch (cc : CharCls)
  | star (cc : CharCls)
  | plus (cc : CharCls)
  | opt (cc : CharCls)
deriving DecidableEq, Repr

/-- A pattern: the alternatives (tried left to right), each a sequence of
atoms. -/
abbrev Pattern := List (List RAtom)

/-- Whether one character satisfies a single-character matcher; `ci` is the
`i` flag (JS case canonicalization, on the ASCII fragment); the dot excludes
the line terminators, of which the ASCII fragment has `\n` and `\r`. -/
def ccMatch (ci : Bool) : CharCls → Char → Bool
  | .lit c => fun x => if ci then Char.toLower x == Char.toLower c else x == c
  | .dot => fun x => !(x = '\n' || x = '\x0d')
  | .wordc => isWordChar
  | .spacec => isWsChar
  | .digitc => Char.isDigit

/-- Greedy Kleene star of a single-character matcher, in continuation-passing
style: consume as many matching characters as possible, backing off one at a
time when the continuation fails, exactly as the JS backtracking engine. -/
def starGreedy (ci : Bool) (cc : CharCls) : Str → (Str → Option Str) → Option Str
  | [], k => k []
  | c :: cs, k =>
    if ccMatch ci cc c then
      match starGreedy ci cc cs k with
      | some r => some r
      | none => k (c :: cs)
    else k (c :: cs)

/-- Match a sequence of atoms at the head of the text, returning the first
(in JS backtracking order) remaining text on which the continuation
succeeds. -/
def matchSeq (ci : Bool) : List RAtom → Str → (Str → Option Str) → Option Str
  | [], s, k => k s
  | .ch cc :: rest, s, k =>
    match s with
    | [] => none
    | c :: cs => if ccMatch ci cc c then matchSeq ci rest cs k else none
  | .star cc :: rest, s, k => starGreedy ci cc s (fun s2 => matchSeq ci rest s2 k)
  | .plus cc :: rest, s, k =>
    match s with
    | [] => none
    | c :: cs =>
      if ccMatch ci cc c then starGreedy ci cc cs (fun s2 => matchSeq ci rest s2 k)
      else none
  | .opt cc :: rest, s, k =>
    match s with
    | [] => matchSeq ci rest [] k
    | c :: cs =>
      if ccMatch ci cc c then
        match matchSeq ci rest cs k with
        | some r => some r
        | none => matchSeq ci rest (c :: cs) k
      else matchSeq ci rest (c :: cs) k

/-- The first match of the pattern anchored at the head of the text:
alternatives are tried in order and the consumed length of the first
successful one is returned, as the JS engine does. -/
def matchFirst (ci : Bool) : Pattern → Str → Option Nat
  | [], _ => none
  | alt :: rest, s =>
    match matchSeq ci alt s some with
    | some rem => some (s.length - rem.length)
    | none => matchFirst ci rest s

/-- `RegExp.prototype.test`: does the pattern match at any position? -/
def rtest (ci : Bool) (pat : Pattern) : Str → Bool
  | [] => (matchFirst ci pat []).isSome
  | c :: cs => (matchFirst ci pat (c :: cs)).isSome || rtest ci pat cs

/-- Global match counting with a skip counter: while the counter is positive
the scan is passing over the tail of the previous match (`lastIndex` jumps
to its end), an empty match advances the scan by one, and a final attempt is
made at the end of the text, as `String.prototype.match` with the `g` flag
does. -/
def countMAux (ci : Bool) (pat : Pattern) : Str → Nat → Nat
  | [], _ => if (matchFirst ci pat []).isSome then 1 else 0
  | _ :: cs, Nat.succ n => countMAux ci pat cs n
  | c :: cs, 0 =>
    match matchFirst ci pat (c :: cs) with
    | none => countMAux ci pat cs 0
    | some 0 => 1 + countMAux ci pat cs 0
    | some (Nat.succ l) => 1 + countMAux ci pat cs l

/-- `code.match(regex)?.length ?? 0` for a global regex: the number of
non-overlapping leftmost matches. -/
def countMatches (ci : Bool) (pat : Pattern) (s : Str) : Nat := countMAux ci pat s 0

/-- Errors of the token-to-regex translation: `invalid` models a token on
which the JS `RegExp` constructor throws a `SyntaxError`
(CodeSearchEngine.ts:305); `unsupported` marks a token using regex
constructs outside the modelled fragment, about which the model asserts
nothing. -/
inductive RxErr where
  | invalid
  | unsupported
deriving DecidableEq, Repr

/-- The regex metacharacters: a character whose presence makes the
dynamically built regex differ from a literal matcher. -/
def isSpecialChar (c : Char) : Bool :=
  c = '\\' || c = '.' || c = '*' || c = '+' || c = '?' || c = '|' ||
  c = '(' || c = ')' || c = '[' || c = ']' || c = '\x7b' || c = '\x7d' ||
  c = '^' || c = '$'

/-- A character the dynamically built regex treats as a literal. -/
def plainChar (c : Char) : Bool := !isSpecialChar c

/-- The single-character matcher denoted by the escape sequence backslash-`e`,
when it is in the modelled fragment: the classes `\s`, `\w`, `\d`, the
control escapes, and the identity escapes of punctuation; letter, digit and
underscore escapes other than these are left out of the model. -/
def escCls : Char → Option CharCls
  | 's' => some .spacec
  | 'w' => some .wordc
  | 'd' => some .digitc
  | 'n' => some (.lit '\n')
  | 't' => some (.lit '\t')
  | 'r' => some (.lit '\x0d')
  | 'f' => some (.lit '\x0c')
  | 'v' => some (.lit '\x0b')
  | c => if c.isAlpha || c.isDigit || c = '_' then none else some (.lit c)

/-- Parse a raw token as a JS regex, left to right, with the current
alternative accumulated in reverse: `|` starts a new alternative, `.` is the
dot, a quantifier applies to the preceding single-character atom (with
nothing to repeat, or piled on another quantifier, the JS constructor
throws, while `?` after a quantifier is a lazy quantifier, outside the
model), a backslash introduces an escape (dangling at the end, the
constructor throws), the remaining metacharacters are outside the model, and
every other character is a literal. -/
def parseTokAux : Str → List RAtom → List (List RAtom) → Except RxErr Pattern
  | [], cur, alts => .ok (alts ++ [cur.reverse])
  | c :: rest, cur, alts =>
    if c = '|' then parseTokAux rest [] (alts ++ [cur.reverse])
    else if c = '.' then parseTokAux rest (.ch .dot :: cur) alts
    else if c = '*' then
      match cur with
      | .ch cc :: cur2 => parseTokAux rest (.star cc :: cur2) alts
      | _ => .error .invalid
    else if c = '+' then
      match cur with
      | .ch cc :: cur2 => parseTokAux rest (.plus cc :: cur2) alts
      | _ => .error .invalid
    else if c = '?' then
      match cur with
      | .ch cc :: cur2 => parseTokAux rest (.opt cc :: cur2) alts
      | [] => .error .invalid
      | _ => .error .unsupported
    else if c = '\\' then
      match rest with
      | [] => .error .invalid
      | e :: rest2 =>
        match escCls e with
        | some cc => parseTokAux rest2 (.ch cc :: cur) alts
        | none => .error .unsupported
    else if isSpecialChar c then .error .unsupported
    else parseTokAux rest (.ch (.lit c) :: cur) alts

/-- `new RegExp(keyword, ...)` on a raw query token
(CodeSearchEngine.ts:305,312-314). -/
def parseToken (kw : Str) : Except RxErr Pattern := parseTokAux kw [] []

/-- Concatenation of two patterns at the source-string level: in
`A1|...|An` followed by `B1|...|Bm` the last alternative of the first
pattern fuses with the first alternative of the second, because `|` has the
lowest precedence. -/
def altConcat : Pattern → Pattern → Pattern
  | [], b => b
  | [a], [] => [a]
  | [a], b1 :: brest => (a ++ b1) :: brest
  | a :: a2 :: arest, b => a :: altConcat (a2 :: arest) b

/-- The atoms of a literal string. -/
def litAtoms (ws : Str) : List RAtom := ws.map (fun c => RAtom.ch (CharCls.lit c))

/-- The interpolated boost regex `class\s+\w*KW\w*` with the `i` flag
(CodeSearchEngine.ts:312), `KW` standing for the token's parsed pattern:
within the modelled fragment, string interpolation is concatenation at the
pattern level (a token that compiles alone also compiles interpolated, since
a token cannot begin with a quantifier or end with a dangling backslash). -/
def classWrap (kp : Pattern) : Pattern :=
  altConcat (altConcat
    [litAtoms ("class".toList) ++ [RAtom.plus CharCls.spacec, RAtom.star CharCls.wordc]] kp)
    [[RAtom.star CharCls.wordc]]

/-- The interpolated boost regex `function\s+\w*KW\w*|\w*KW\w*\s*\(` with the
`i` flag (CodeSearchEngine.ts:313). -/
def funcWrap (kp : Pattern) : Pattern :=
  altConcat (altConcat (altConcat (altConcat
    [litAtoms ("function".toList) ++ [RAtom.plus CharCls.spacec, RAtom.star CharCls.wordc]] kp)
    [[RAtom.star CharCls.wordc], [RAtom.star CharCls.wordc]]) kp)
    [[RAtom.star CharCls.wordc, RAtom.star CharCls.spacec, RAtom.ch (CharCls.lit '(')]]

/-- The interpolated boost regex `\/\/.*KW|\*.*KW` with the `i` flag
(CodeSearchEngine.ts:314). -/
def commentWrap (kp : Pattern) : Pattern :=
  altConcat (altConcat (altConcat
    [[RAtom.ch (CharCls.lit '/'), RAtom.ch (CharCls.lit '/'), RAtom.star CharCls.dot]] kp)
    [[], [RAtom.ch (CharCls.lit '*'), RAtom.star CharCls.dot]]) kp

/-- The FALLBACK loop body over the query tokens (CodeSearchEngine.ts:303-319)
with the token compiled to a regex: `new RegExp(keyword, 'g')` may throw,
the occurrence count is the number of global regex matches, and the three
boost regexes — built only when at least one match exists, so never for an
uncompilable token — are tested with the `i` flag. -/
def fallbackScoreAux : List Str → Str → ℚ → Except RxErr ℚ
  | [], _, score => .ok score
  | kw :: rest, lowCode, score =>
    match parseToken kw with
    | .error e => .error e
    | .ok kp =>
      let n := countMatches false kp lowCode
      if n ≠ 0 then
        let s1 := score + (n : ℚ) * (1 / 100)
        let s2 := if rtest true (classWrap kp) lowCode then s1 + 3 / 10 else s1
        let s3 := if rtest true (funcWrap kp) lowCode then s2 + 2 / 10 else s2
        let s4 := if rtest true (commentWrap kp) lowCode then s3 + 1 / 10 else s3
        fallbackScoreAux rest lowCode s4
      else fallbackScoreAux rest lowCode score

/-- The FALLBACK score of one file under the regex semantics of the source
(CodeSearchEngine.ts:299-320): the code is lowercased once, then the query
tokens are folded over `fallbackScoreAux`.  Theorem
`fallbackItemScoreRx_plain` proves it returns exactly
`fallbackItemScore` for metacharacter-free tokens. -/
def fallbackItemScoreRx (tokens : List Str) (rawCode : Str) : Except RxErr ℚ :=
  fallbackScoreAux tokens (lowerStr rawCode) 0

/-- The FALLBACK accumulation loop (CodeSearchEngine.ts:299-325) with the
fallible per-item scorer: the first item whose scoring throws aborts the
whole search, exactly as the uncaught JS exception does. -/
def accumulateScoresE (score : CodeMetadata → Except RxErr ℚ) :
    List CodeMetadata → List (Str × ℚ) → Except RxErr (List (Str × ℚ))
  | [], scores => .ok scores
  | item :: rest, scores =>
    match score item with
    | .error e => .error e
    | .ok s =>
      accumulateScoresE score rest (if 0 < s then setA scores item.file s else scores)

/-- `keywordSearch` (CodeSearchEngine.ts:244-329) with the FALLBACK branch
under the regex semantics of the source.  Theorem `keywordSearchRx_plain`
proves it agrees with `keywordSearch` whenever the query's tokens contain no
regex metacharacters. -/
def keywordSearchRx (query : Str) (metadata : List CodeMetadata) :
    Except RxErr (List (Str × ℚ)) :=
  let queryKeywords := queryTokens query
  if queryKeywords.isEmpty then .ok []
  else if hasKeywordIndices metadata then
    .ok (accumulateScores (fun item => prebuiltFileScore queryKeywords item.keywords) metadata)
  else
    accumulateScoresE (fun item => fallbackItemScoreRx queryKeywords item.code) metadata []

/-- One pre-rank scored result (the anonymous record of
CodeSearchEngine.ts:357-365). -/
structure ScoredEntry where
  file : Str
  code : Str
  similarityScore : ℚ
deriving DecidableEq, Repr

/-- One final search result (CodeSearchEngine.ts:14-19). -/
structure SearchResult where
  file : Str
  code : Str
  similarityScore : ℚ
  rank : Nat
deriving DecidableEq, Repr

/-- The `scoredResults` list before sorting (CodeSearchEngine.ts:357-365):
the scores map entries in insertion order, joined with the first metadata
record of the same file.  The JS non-null assertion on `find` is modelled by
`filterMap`; it never drops an entry because score keys come from metadata. -/
def scoredEntries (metadata : List CodeMetadata) (query : Str) : List ScoredEntry :=
  (keywordSearch query metadata).filterMap fun fs =>
    (metadata.find? (fun m => m.file == fs.1)).map fun item =>
      { file := fs.1, code := item.code, similarityScore := fs.2 }

/-- Stable insertion of `x` into a descending-sorted list: `x` goes before
the first strictly smaller element and after equal ones that were inserted
earlier.  Together with `sortDesc` this realizes the observable behavior
that ECMAScript specifies for `Array.prototype.sort` with the comparator
`(a, b) => b.similarityScore - a.similarityScore` (CodeSearchEngine.ts:366):
sorted by descending score and stable on ties. -/
def insertDesc (x : ScoredEntry) : List ScoredEntry → List ScoredEntry
  | [] => [x]
  | y :: ys =>
    if y.similarityScore ≤ x.similarityScore then x :: y :: ys
    else y :: insertDesc x ys

/-- Stable descending sort by `similarityScore`. -/
def sortDesc : List ScoredEntry → List ScoredEntry
  | [] => []
  | x :: xs => insertDesc x (sortDesc xs)

/-- `.map((result, index) => ({...result, rank: index + 1}))`
(CodeSearchEngine.ts:369-372), with the running index made explicit. -/
def assignRanks : Nat → List ScoredEntry → List SearchResult
  | _, [] => []
  | i, e :: es =>
    { file := e.file, code := e.code, similarityScore := e.similarityScore,
      rank := i + 1 } :: assignRanks (i + 1) es

/-- The pure tail of `search` (CodeSearchEngine.ts:349-372), once the
directory metadata has been fetched: fail on an empty index, otherwise score,
sort descending (stably) and attach 1-based ranks. -/
def searchPure (metadata : List CodeMetadata) (query : Str) (directory : Str) :
    Except EngineError (List SearchResult) :=
  if metadata.isEmpty then .error (.noIndexedFiles directory)
  else .ok (assignRanks 0 (sortDesc (scoredEntries metadata query)))

/-- Fold of POSIX path components: empty components and `.` are skipped,
`..` pops the last kept component (clamped at the root), everything else is
pushed.  This is the normalization step of Node `path.resolve`. -/
def processComps : List Str → List Str → List Str
  | stack, [] => stack
  | stack, c :: rest =>
    if c = [] ∨ c = ['.'] then processComps stack rest
    else if c = ['.', '.'] then processComps stack.dropLast rest
    else processComps (stack ++ [c]) rest

/-- Join path components with `/` separators. -/
def joinSlash : List Str → Str
  | [] => []
  | [c] => c
  | c :: c2 :: rest => c ++ '/' :: joinSlash (c2 :: rest)

/-- Render an absolute path from components; `[]` renders as the root `/`. -/
def renderAbs (comps : List Str) : Str := '/' :: joinSlash comps

/-- Node `path.resolve(p)` on POSIX paths, with the process working
directory passed explicitly: an absolute `p` is normalized on its own, a
relative `p` is resolved against `cwd`; the result is absolute and carries
no trailing separator except for the root itself. -/
def resolvePath (cwd p : Str) : Str :=
  renderAbs (processComps
    (if p.head? = some '/' then [] else processComps [] (splitChar '/' cwd))
    (splitChar '/' p))

/-- `getNormalizedDirectory` (CodeSearchEngine.ts:108-111): `path.resolve`,
then append the separator when missing. -/
def getNormalizedDirectory (cwd directory : Str) : Str :=
  let resolvedDir := resolvePath cwd directory
  if resolvedDir.getLast? = some '/' then resolvedDir else resolvedDir ++ ['/']

/-- `path.basename` on POSIX paths: everything after the last separator. -/
def basename (f : Str) : Str := (f.reverse.takeWhile (fun c => c ≠ '/')).reverse

/-- The test-file predicate of `getSourceFiles` (utils.ts:80-87): lowercased
basename containing `.spec.` or `.test.`, or the path containing
`__tests__`. -/
def isTestFile (f : Str) : Bool :=
  strIncludes (lowerStr (basename f)) (".spec.".toList) ||
  strIncludes (lowerStr (basename f)) (".test.".toList) ||
  strIncludes f ("__tests__".toList)

/-- `getSourceFiles` (utils.ts:48-89) with the file system abstracted: the
raw glob matches (all extensions concatenated, extension-major) and the
chained ignore rules are inputs; the function keeps the non-ignored matches
and then unconditionally drops test files. -/
def getSourceFiles (globMatches : List Str) (ignored : Str → Bool) : List Str :=
  (globMatches.filter (fun f => !ignored f)).filter (fun f => !isTestFile f)

/-- The observable result of scanning one directory: glob matches plus the
ignore predicate built from the `.gitignore` chain and `node_modules`. -/
structure DirScan where
  globMatches : List Str
  ignored : Str → Bool

/-- The files `getSourceFiles` returns for a scan. -/
def scanFiles (d : DirScan) : List Str := getSourceFiles d.globMatches d.ignored

/-- The file-system responses consumed by one `createIndex` call: the scan of
the directory itself, the scans of its immediate subdirectories (`none` for a
subdirectory whose scan failed and was skipped, CodeSearchEngine.ts:157-165),
and the per-file read results (`none` for a read that threw and was skipped,
CodeSearchEngine.ts:191-208). -/
structure FsModel where
  direct : DirScan
  subdirs : List (Option DirScan)
  readFile : Str → Option Str

/-- The engine state (CodeSearchEngine.ts:22-24): the directory-to-index map
and the directory-to-extension-set map, both keyed by the normalized
directory path. -/
structure EngineState where
  directoryIndices : List (Str × List CodeMetadata)
  indexedExtensions : List (Str × List Str)
deriving DecidableEq, Repr

/-- The state of a freshly constructed engine (CodeSearchEngine.ts:29-31). -/
def emptyEngineState : EngineState := { directoryIndices := [], indexedExtensions := [] }

/-- The default extension list (utils.ts:50, CodeSearchEngine.ts:180,343). -/
def defaultExtensions : List Str :=
  [".ts", ".tsx", ".js", ".jsx", ".py", ".java", ".cpp", ".cs"].map String.toList

/-- The files one `createIndex` call discovers (CodeSearchEngine.ts:130-175):
the direct scan when non-empty, otherwise the concatenation of the scans of
the immediate subdirectories that scanned successfully. -/
def discoveredFiles (fsm : FsModel) : List Str :=
  if (scanFiles fsm.direct).isEmpty then
    ((fsm.subdirs.filterMap id).map scanFiles).flatten
  else scanFiles fsm.direct

/-- One file record built during indexing (CodeSearchEngine.ts:191-204):
`none` when the read failed and the file is skipped. -/
def readRecord (readFile : Str → Option Str) (f : Str) : Option CodeMetadata :=
  (readFile f).map fun content =>
    { file := f, code := content, keywords := extractKeywords content,
      checksum := content }

/-- The metadata list a build stores (CodeSearchEngine.ts:183-209). -/
def builtMetadata (fsm : FsModel) : List CodeMetadata :=
  (discoveredFiles fsm).filterMap (readRecord fsm.readFile)

/-- `createIndex` (CodeSearchEngine.ts:120-215): fail with `NoFilesFound`
when nothing is discovered; otherwise remember the extension set (the given
one or the defaults) and store the freshly built metadata list, fully
replacing any previous entries for the normalized key. -/
def createIndex (st : EngineState) (fsm : FsModel) (cwd directory : Str)
    (extensions : Option (List Str)) : Except EngineError EngineState :=
  let normalizedDir := getNormalizedDirectory cwd directory
  if (discoveredFiles fsm).isEmpty then .error (.noFilesFound directory)
  else
    .ok
      { directoryIndices := setA st.directoryIndices normalizedDir (builtMetadata fsm),
        indexedExtensions :=
          setA st.indexedExtensions normalizedDir (extensions.getD defaultExtensions) }

/-- The implicit build of `search` (CodeSearchEngine.ts:340-345): when no
index exists for the normalized key, build one with the remembered extension
set or the defaults; otherwise leave the state untouched. -/
def implicitBuild (st : EngineState) (fsm : FsModel) (cwd directory : Str) :
    Except EngineError EngineState :=
  if (getA? st.directoryIndices (getNormalizedDirectory cwd directory)).isNone then
    createIndex st fsm cwd directory
      (some ((getA? st.indexedExtensions
        (getNormalizedDirectory cwd directory)).getD defaultExtensions))
  else .ok st

/-- `search` (CodeSearchEngine.ts:336-373): implicit build, metadata fetch
(empty when the key is still absent), then the pure scoring/ranking tail.
The mutated engine object is returned alongside the results. -/
def searchEngine (st : EngineState) (fsm : FsModel) (cwd query directory : Str) :
    Except EngineError (List SearchResult × EngineState) :=
  match implicitBuild st fsm cwd directory with
  | .error e => .error e
  | .ok st2 =>
    match searchPure
        ((getA? st2.directoryIndices (getNormalizedDirectory cwd directory)).getD [])
        query directory with
    | .error e => .error e
    | .ok results => .ok (results, st2)

/-- `getRelevantFiles` (CodeSearchEngine.ts:233-236): the same search,
projected to file paths. -/
def getRelevantFiles (st : EngineState) (fsm : FsModel) (cwd query directory : Str) :
    Except EngineError (List Str × EngineState) :=
  match searchEngine st fsm cwd query directory with
  | .error e => .error e
  | .ok (results, st2) => .ok (results.map (fun r => r.file), st2)

/-! ### General lemmas about the embedded operations -/

theorem foldl_body_sum {α : Type} (body : ℚ → α → ℚ) (g : α → ℚ)
    (hb : ∀ a x, body a x = a + g x) (l : List α) (init : ℚ) :
    l.foldl body init = init + (l.map g).sum := by
  induction l generalizing init with
  | nil => simp
  | cons x xs ih => rw [List.foldl_cons, hb, ih, List.map_cons, List.sum_cons, add_assoc]

theorem foldl_add_if_sum {α : Type} (c : α → Bool) (f : α → ℚ) (l : List α) (init : ℚ) :
    l.foldl (fun a x => if c x then a + f x else a) init
      = init + ((l.filter c).map f).sum := by
  induction l generalizing init with
  | nil => simp
  | cons x xs ih =>
    by_cases h : c x <;>
      simp [h, ih, add_assoc, List.filter_cons]

theorem strIncludes_true_iff (hay pat : Str) : strIncludes hay pat = true ↔ pat <:+: hay := by
  induction hay with
  | nil =>
    simp only [strIncludes, List.isEmpty_iff]
    exact ⟨fun h => h ▸ List.infix_rfl, fun h => List.eq_nil_of_infix_nil h⟩
  | cons c cs ih =>
    simp only [strIncludes, Bool.or_eq_true, ih, List.infix_cons_iff,
      List.isPrefixOf_iff_prefix]

theorem ne_nil_of_drop_ne_nil (l : Str) (n : Nat) (h : l.drop n ≠ []) : l ≠ [] := by
  intro he
  subst he
  simp at h

theorem countOccur_pos (code kw : Str) : code ≠ [] → kw <:+: code →
    0 < countOccur code kw := by
  unfold countOccur
  induction code with
  | nil => exact fun hcode _ => absurd rfl hcode
  | cons c cs ih =>
    intro _ h
    by_cases hp : kw.isPrefixOf (c :: cs)
    · simp only [countOccurAux, hp, if_true]
      omega
    · have hkw : kw ≠ [] := by
        intro hk
        subst hk
        exact hp rfl
      rcases List.infix_cons_iff.mp h with h1 | h1
      · exact absurd (List.isPrefixOf_iff_prefix.mpr h1) hp
      · have hcs : cs ≠ [] := by
          intro hc
          subst hc
          exact hkw (List.eq_nil_of_infix_nil h1)
        simpa only [countOccurAux, hp, if_false] using ih hcs h1

theorem classPattern_countOccur (code kw : Str) (h : classPattern code kw = true) :
    0 < countOccur code kw := by
  unfold classPattern at h
  rcases List.any_eq_true.mp h with ⟨p, _, hbody⟩
  simp only [Bool.and_eq_true, decide_eq_true_eq] at hbody
  obtain ⟨hcls, _, hrest⟩ := hbody
  rcases List.any_eq_true.mp hrest with ⟨k, _, hpref⟩
  have hinf : kw <:+: code :=
    (((List.isPrefixOf_iff_prefix.mp hpref).isInfix.trans
      (List.drop_suffix _ _).isInfix).trans
      (List.drop_suffix _ _).isInfix).trans (List.drop_suffix _ _).isInfix
  have hne : code ≠ [] := by
    refine ne_nil_of_drop_ne_nil code p (fun hd => ?_)
    rw [hd] at hcls
    exact absurd hcls (by simp [List.isPrefixOf])
  exact countOccur_pos code kw hne hinf

theorem functionPattern_countOccur (code kw : Str) (h : functionPattern code kw = true) :
    0 < countOccur code kw := by
  unfold functionPattern at h
  simp only [Bool.or_eq_true] at h
  rcases h with h1 | h1
  · rcases List.any_eq_true.mp h1 with ⟨p, _, hbody⟩
    simp only [Bool.and_eq_true, decide_eq_true_eq] at hbody
    obtain ⟨hfn, _, hrest⟩ := hbody
    rcases List.any_eq_true.mp hrest with ⟨k, _, hpref⟩
    have hinf : kw <:+: code :=
      (((List.isPrefixOf_iff_prefix.mp hpref).isInfix.trans
        (List.drop_suffix _ _).isInfix).trans
        (List.drop_suffix _ _).isInfix).trans (List.drop_suffix _ _).isInfix
    have hne : code ≠ [] := by
      refine ne_nil_of_drop_ne_nil code p (fun hd => ?_)
      rw [hd] at hfn
      exact absurd hfn (by simp [List.isPrefixOf])
    exact countOccur_pos code kw hne hinf
  · rcases List.any_eq_true.mp h1 with ⟨p, _, hbody⟩
    simp only [Bool.and_eq_true, decide_eq_true_eq] at hbody
    obtain ⟨hpref, hopen⟩ := hbody
    have hinf : kw <:+: code :=
      (List.isPrefixOf_iff_prefix.mp hpref).isInfix.trans (List.drop_suffix _ _).isInfix
    have hne : code ≠ [] := by
      refine ne_nil_of_drop_ne_nil code p (fun hd => ?_)
      have hx := hopen
      rw [hd] at hx
      simp at hx
    exact countOccur_pos code kw hne hinf

theorem commentPattern_countOccur (code kw : Str) (h : commentPattern code kw = true) :
    0 < countOccur code kw := by
  unfold commentPattern at h
  rcases List.any_eq_true.mp h with ⟨p, _, hbody⟩
  simp only [Bool.or_eq_true] at hbody
  rcases hbody with h1 | h1 <;>
    simp only [Bool.and_eq_true, decide_eq_true_eq] at h1
  · obtain ⟨hsl, hincl⟩ := h1
    have hinf : kw <:+: code :=
      (((strIncludes_true_iff _ _).mp hincl).trans
        (List.takeWhile_prefix _).isInfix).trans
        ((List.drop_suffix _ _).isInfix.trans (List.drop_suffix _ _).isInfix)
    have hne : code ≠ [] := by
      refine ne_nil_of_drop_ne_nil code p (fun hd => ?_)
      rw [hd] at hsl
      exact absurd hsl (by simp [List.isPrefixOf])
    exact countOccur_pos code kw hne hinf
  · obtain ⟨hstar, hincl⟩ := h1
    have hinf : kw <:+: code :=
      (((strIncludes_true_iff _ _).mp hincl).trans
        (List.takeWhile_prefix _).isInfix).trans
        ((List.drop_suffix _ _).isInfix.trans (List.drop_suffix _ _).isInfix)
    have hne : code ≠ [] := by
      refine ne_nil_of_drop_ne_nil code p (fun hd => ?_)
      have hx := hstar
      rw [hd] at hx
      simp at hx
    exact countOccur_pos code kw hne hinf

theorem fallback_body (rawCode : Str) (score : ℚ) (keyword : Str) :
    (let n := countOccur (lowerStr rawCode) keyword
     if n ≠ 0 then
       let s1 := score + (n : ℚ) * (1 / 100)
       let s2 := if classPattern (lowerStr rawCode) keyword then s1 + 3 / 10 else s1
       let s3 := if functionPattern (lowerStr rawCode) keyword then s2 + 2 / 10 else s2
       if commentPattern (lowerStr rawCode) keyword then s3 + 1 / 10 else s3
     else score)
    = score + ((countOccur (lowerStr rawCode) keyword : ℚ) * (1 / 100)
        + (if classPattern (lowerStr rawCode) keyword then 3 / 10 else 0)
        + (if functionPattern (lowerStr rawCode) keyword then 2 / 10 else 0)
        + (if commentPattern (lowerStr rawCode) keyword then 1 / 10 else 0)) := by
  by_cases hn : countOccur (lowerStr rawCode) keyword = 0
  · have hc : classPattern (lowerStr rawCode) keyword = false := by
      cases hx : classPattern (lowerStr rawCode) keyword
      · rfl
      · exact absurd (classPattern_countOccur _ _ hx) (by omega)
    have hf : functionPattern (lowerStr rawCode) keyword = false := by
      cases hx : functionPattern (lowerStr rawCode) keyword
      · rfl
      · exact absurd (functionPattern_countOccur _ _ hx) (by omega)
    have hm : commentPattern (lowerStr rawCode) keyword = false := by
      cases hx : commentPattern (lowerStr rawCode) keyword
      · rfl
      · exact absurd (commentPattern_countOccur _ _ hx) (by omega)
    simp [hn, hc, hf, hm]
  · by_cases hc : classPattern (lowerStr rawCode) keyword <;>
      by_cases hf : functionPattern (lowerStr rawCode) keyword <;>
        by_cases hm : commentPattern (lowerStr rawCode) keyword <;>
          (simp [hn, hc, hf, hm]; try ring)

/-! ### The regex model against the literal reading

The lemmas below relate the regex model of the FALLBACK scorer to the
literal definitions `countOccur`, `classPattern`, `functionPattern` and
`commentPattern`: on every query token without regex metacharacters the two
coincide, which is the amended content of C2. -/

theorem toLower_not_upper (c : Char) : (Char.toLower c).isUpper = false := by
  unfold Char.toLower
  by_cases h : Char.toNat c ≥ 65 ∧ Char.toNat c ≤ 90
  · rw [if_pos h]
    unfold Char.isUpper
    simp only [Char.toNat] at h
    rw [Char.ofNat, dif_pos (Or.inl (by simp only [Char.toNat, UInt32.toNat] at h ⊢; omega))]
    unfold Char.ofNatAux
    simp only [UInt32.ofNat', Bool.and_eq_false_iff, decide_eq_false_iff_not,
      UInt32.le_def, BitVec.le_def, BitVec.toNat_ofNatLt]
    right
    simp only [Char.toNat, UInt32.toNat] at h ⊢
    simp
    omega
  · rw [if_neg h]
    unfold Char.isUpper
    simp only [Bool.and_eq_false_iff, decide_eq_false_iff_not, UInt32.le_def, BitVec.le_def]
    simp only [Char.toNat, UInt32.toNat] at h
    by_cases h1 : (65:Nat) ≤ c.val.toBitVec.toNat
    · right; intro hc; exact h ⟨h1, by simpa using hc⟩
    · left; intro hc; exact h1 (by simpa using hc)

theorem toLower_idem (c : Char) : Char.toLower (Char.toLower c) = Char.toLower c := by
  have h := toLower_not_upper c
  unfold Char.isUpper at h
  conv_lhs => rw [Char.toLower]
  rw [if_neg]
  intro hc
  rw [Bool.and_eq_false_iff] at h
  simp only [Char.toNat, UInt32.toNat] at hc
  rcases h with h | h <;>
    simp only [decide_eq_false_iff_not, UInt32.le_def, BitVec.le_def] at h <;>
    simp at h <;> omega

theorem mem_lowerStr (s : Str) (x : Char) (hx : x ∈ lowerStr s) :
    Char.toLower x = x := by
  rcases List.mem_map.mp hx with ⟨y, _, hy⟩
  rw [← hy, toLower_idem]

theorem ccMatch_lit_eq (ci : Bool) (c x : Char) (hc : Char.toLower c = c)
    (hx : Char.toLower x = x) : ccMatch ci (.lit c) x = (x == c) := by
  cases ci
  · rfl
  · show (Char.toLower x == Char.toLower c) = (x == c)
    rw [hc, hx]

theorem matchSeq_lits (ci : Bool) (ws : Str) (rest : List RAtom) (t : Str)
    (K : Str → Option Str)
    (hcc : ∀ c ∈ ws, ∀ x ∈ t, ccMatch ci (.lit c) x = (x == c)) :
    matchSeq ci (litAtoms ws ++ rest) t K
      = if ws.isPrefixOf t then matchSeq ci rest (t.drop ws.length) K else none := by
  induction ws generalizing t with
  | nil => simp [litAtoms, List.isPrefixOf]
  | cons c ws ih =>
    cases t with
    | nil =>
      simp only [litAtoms, List.map_cons, List.cons_append, matchSeq, List.isPrefixOf,
        if_neg]
      simp [List.isPrefixOf]
    | cons x xs =>
      show (if ccMatch ci (.lit c) x then matchSeq ci (litAtoms ws ++ rest) xs K else none)
        = _
      rw [hcc c (by simp) x (by simp)]
      by_cases hx : x = c
      · subst hx
        rw [if_pos (by simp)]
        rw [ih xs (fun c' hc' x' hx' => hcc c' (by simp [hc']) x' (by simp [hx']))]
        simp only [List.isPrefixOf_cons₂_self]
        by_cases hp : ws.isPrefixOf xs
        · rw [if_pos hp, if_pos ?_]
          · simp
          · simpa [List.isPrefixOf] using hp
        · rw [if_neg hp, if_neg ?_]
          simpa [List.isPrefixOf] using hp
      · rw [if_neg (by simpa using hx), if_neg ?_]
        intro hco
        rw [List.isPrefixOf_cons₂, Bool.and_eq_true, beq_iff_eq] at hco
        exact hx hco.1.symm


theorem starGreedy_isSome (ci : Bool) (cc : CharCls) (t : Str) (K : Str → Option Str) :
    (starGreedy ci cc t K).isSome = true
      ↔ ∃ j, j ≤ (t.takeWhile (ccMatch ci cc)).length ∧ (K (t.drop j)).isSome = true := by
  induction t with
  | nil =>
    simp only [starGreedy, List.takeWhile_nil, List.length_nil, Nat.le_zero]
    constructor
    · exact fun h => ⟨0, rfl, h⟩
    · rintro ⟨j, hj, h⟩
      subst hj
      exact h
  | cons c cs ih =>
    simp only [starGreedy]
    cases hcc : ccMatch ci cc c with
    | true =>
      rw [if_pos rfl, List.takeWhile_cons_of_pos hcc]
      simp only [List.length_cons]
      constructor
      · intro h
        cases hsg : starGreedy ci cc cs K with
        | some r =>
          rcases ih.mp (by rw [hsg]; rfl) with ⟨j, hj, hK⟩
          exact ⟨j + 1, by omega, by simpa using hK⟩
        | none =>
          rw [hsg] at h
          exact ⟨0, by omega, h⟩
      · rintro ⟨j, hj, hK⟩
        cases j with
        | zero =>
          cases hsg : starGreedy ci cc cs K with
          | some r => rfl
          | none => simpa using hK
        | succ j =>
          cases hsg : starGreedy ci cc cs K with
          | some r => rfl
          | none =>
            exfalso
            have h2 : (starGreedy ci cc cs K).isSome = true :=
              ih.mpr ⟨j, by omega, by simpa using hK⟩
            rw [hsg] at h2
            simp at h2
    | false =>
      rw [if_neg (by simp), List.takeWhile_cons_of_neg (by simp [hcc])]
      simp only [List.length_nil, Nat.le_zero]
      constructor
      · exact fun h => ⟨0, rfl, h⟩
      · rintro ⟨j, hj, h⟩
        subst hj
        exact h

theorem matchSeq_star_isSome (ci : Bool) (cc : CharCls) (rest : List RAtom) (t : Str)
    (K : Str → Option Str) :
    (matchSeq ci (.star cc :: rest) t K).isSome = true
      ↔ ∃ j, j ≤ (t.takeWhile (ccMatch ci cc)).length
          ∧ (matchSeq ci rest (t.drop j) K).isSome = true := by
  show (starGreedy ci cc t _).isSome = true ↔ _
  exact starGreedy_isSome ci cc t _

theorem matchSeq_plus_isSome (ci : Bool) (cc : CharCls) (rest : List RAtom) (t : Str)
    (K : Str → Option Str) :
    (matchSeq ci (.plus cc :: rest) t K).isSome = true
      ↔ ∃ j, 1 ≤ j ∧ j ≤ (t.takeWhile (ccMatch ci cc)).length
          ∧ (matchSeq ci rest (t.drop j) K).isSome = true := by
  cases t with
  | nil =>
    show (none : Option Str).isSome = true ↔ _
    simp only [Option.isSome_none, Bool.false_eq_true, false_iff]
    rintro ⟨j, h1, hj, _⟩
    simp only [List.takeWhile_nil, List.length_nil, Nat.le_zero] at hj
    omega
  | cons c cs =>
    show ((if ccMatch ci cc c then starGreedy ci cc cs _ else none).isSome = true) ↔ _
    cases hcc : ccMatch ci cc c with
    | true =>
      rw [if_pos rfl, starGreedy_isSome, List.takeWhile_cons_of_pos hcc]
      simp only [List.length_cons]
      constructor
      · rintro ⟨j, hj, hK⟩
        exact ⟨j + 1, by omega, by omega, by simpa using hK⟩
      · rintro ⟨j, h1, hj, hK⟩
        cases j with
        | zero => omega
        | succ j => exact ⟨j, by omega, by simpa using hK⟩
    | false =>
      rw [if_neg (by simp), List.takeWhile_cons_of_neg (by simp [hcc])]
      simp only [List.length_nil, Option.isSome_none, Bool.false_eq_true, false_iff]
      rintro ⟨j, h1, hj, _⟩
      simp only [Nat.le_zero] at hj
      omega

theorem matchSeq_star_tail (ci : Bool) (cc : CharCls) (t : Str) :
    (matchSeq ci [.star cc] t some).isSome = true := by
  rw [matchSeq_star_isSome]
  exact ⟨0, Nat.zero_le _, rfl⟩

theorem matchSeq_ch_last (ci : Bool) (cc : CharCls) (t : Str) :
    (matchSeq ci [.ch cc] t some).isSome = true
      ↔ ∃ c cs, t = c :: cs ∧ ccMatch ci cc c = true := by
  cases t with
  | nil =>
    show (none : Option Str).isSome = true ↔ _
    simp
  | cons c cs =>
    show ((if ccMatch ci cc c then matchSeq ci [] cs some else none).isSome = true) ↔ _
    cases hcc : ccMatch ci cc c with
    | true =>
      rw [if_pos rfl]
      show (some cs).isSome = true ↔ _
      simp only [Option.isSome_some, true_iff]
      exact ⟨c, cs, rfl, hcc⟩
    | false =>
      rw [if_neg (by simp)]
      simp only [Option.isSome_none, Bool.false_eq_true, false_iff]
      rintro ⟨c', cs', he, hcc'⟩
      cases he
      rw [hcc] at hcc'
      exact Bool.false_ne_true hcc'

theorem matchFirst_single_isSome (ci : Bool) (alt : List RAtom) (t : Str) :
    (matchFirst ci [alt] t).isSome = (matchSeq ci alt t some).isSome := by
  show (match matchSeq ci alt t some with
    | some rem => some (t.length - rem.length)
    | none => matchFirst ci [] t).isSome = _
  cases matchSeq ci alt t some <;> rfl

theorem matchFirst_pair_isSome (ci : Bool) (a b : List RAtom) (t : Str) :
    (matchFirst ci [a, b] t).isSome
      = ((matchSeq ci a t some).isSome || (matchSeq ci b t some).isSome) := by
  show (match matchSeq ci a t some with
    | some rem => some (t.length - rem.length)
    | none => matchFirst ci [b] t).isSome = _
  cases matchSeq ci a t some with
  | some r => rfl
  | none => rw [matchFirst_single_isSome]; rfl

theorem rtest_iff (ci : Bool) (pat : Pattern) (s : Str) :
    rtest ci pat s = true
      ↔ ∃ n, n ≤ s.length ∧ (matchFirst ci pat (s.drop n)).isSome = true := by
  induction s with
  | nil =>
    show (matchFirst ci pat []).isSome = true ↔ _
    constructor
    · exact fun h => ⟨0, by omega, h⟩
    · rintro ⟨n, hn, h⟩
      simpa using h
  | cons c cs ih =>
    show ((matchFirst ci pat (c :: cs)).isSome || rtest ci pat cs) = true ↔ _
    rw [Bool.or_eq_true, ih]
    constructor
    · rintro (h | ⟨n, hn, h⟩)
      · exact ⟨0, by simp, h⟩
      · exact ⟨n + 1, by simpa using hn, by simpa using h⟩
    · rintro ⟨n, hn, h⟩
      cases n with
      | zero => exact Or.inl h
      | succ n => exact Or.inr ⟨n, by simpa using hn, by simpa using h⟩

theorem head_drop_takeWhile (p : Char → Bool) (t : Str) (j : Nat)
    (h : j < (t.takeWhile p).length) :
    ∃ c, (t.drop j).head? = some c ∧ p c = true := by
  induction t generalizing j with
  | nil => simp at h
  | cons a l ih =>
    cases hp : p a with
    | false =>
      rw [List.takeWhile_cons_of_neg (by simp [hp])] at h
      simp at h
    | true =>
      rw [List.takeWhile_cons_of_pos hp] at h
      simp only [List.length_cons] at h
      cases j with
      | zero => exact ⟨a, rfl, hp⟩
      | succ j => simpa using ih j (by omega)

theorem takeWhile_head_false (p : Char → Bool) (t : Str) (c : Char)
    (hh : t.head? = some c) (hp : p c = false) : t.takeWhile p = [] := by
  cases t with
  | nil => rfl
  | cons a l =>
    simp only [List.head?_cons, Option.some.injEq] at hh
    subst hh
    exact List.takeWhile_cons_of_neg (by simp [hp])

theorem ws_not_word (c : Char) (h : isWsChar c = true) : isWordChar c = false := by
  unfold isWsChar at h
  simp only [Bool.or_eq_true, decide_eq_true_eq] at h
  rcases h with ((((h | h) | h) | h) | h) | h <;> subst h <;> decide

theorem word_not_ws (c : Char) (h : isWordChar c = true) : isWsChar c = false := by
  cases hw : isWsChar c with
  | false => rfl
  | true => rw [ws_not_word c hw] at h; exact absurd h (by simp)

theorem prefix_to_takeWhile (q : Char → Bool) :
    ∀ (t kw : Str) (j : Nat), (∀ c ∈ kw, q c = true) →
      j ≤ (t.takeWhile q).length → kw <+: t.drop j →
      kw <+: (t.takeWhile q).drop j := by
  intro t
  induction t with
  | nil =>
    intro kw j hq hj hp
    simpa using hp
  | cons a l ih =>
    intro kw j hq hj hp
    cases hqa : q a with
    | false =>
      rw [List.takeWhile_cons_of_neg (by simp [hqa])] at hj ⊢
      simp only [List.length_nil, Nat.le_zero] at hj
      subst hj
      simp only [List.drop_zero] at hp ⊢
      cases kw with
      | nil => exact List.nil_prefix
      | cons k0 ktl =>
        exfalso
        rcases hp with ⟨w, hw⟩
        simp only [List.cons_append, List.cons.injEq] at hw
        have hqk := hq k0 (by simp)
        rw [hw.1, hqa] at hqk
        exact absurd hqk (by simp)
    | true =>
      rw [List.takeWhile_cons_of_pos hqa] at hj ⊢
      cases j with
      | zero =>
        simp only [List.drop_zero] at hp ⊢
        cases kw with
        | nil => exact List.nil_prefix
        | cons k0 ktl =>
          rcases hp with ⟨w, hw⟩
          simp only [List.cons_append, List.cons.injEq] at hw
          obtain ⟨hk0, hwtl⟩ := hw
          subst hk0
          have htl : ktl <+: l.takeWhile q := by
            have h2 := ih ktl 0 (fun c hc => hq c (by simp [hc])) (by omega)
              (by simpa using ⟨w, hwtl⟩)
            simpa using h2
          rcases htl with ⟨w2, hw2⟩
          exact ⟨w2, by simp [hw2]⟩
      | succ j =>
        simp only [List.length_cons] at hj
        simp only [List.drop_succ_cons] at hp ⊢
        exact ih kw j hq (by omega) hp

theorem prefix_of_takeWhile (q : Char → Bool) :
    ∀ (t kw : Str) (j : Nat), kw <+: (t.takeWhile q).drop j → kw <+: t.drop j := by
  intro t
  induction t with
  | nil =>
    intro kw j hp
    simpa using hp
  | cons a l ih =>
    intro kw j hp
    cases hqa : q a with
    | false =>
      rw [List.takeWhile_cons_of_neg (by simp [hqa])] at hp
      have hkw : kw = [] := by simpa using hp
      subst hkw
      exact List.nil_prefix
    | true =>
      rw [List.takeWhile_cons_of_pos hqa] at hp
      cases j with
      | zero =>
        simp only [List.drop_zero] at hp ⊢
        cases kw with
        | nil => exact List.nil_prefix
        | cons k0 ktl =>
          rcases hp with ⟨w, hw⟩
          simp only [List.cons_append, List.cons.injEq] at hw
          obtain ⟨hk0, hwtl⟩ := hw
          subst hk0
          have htl : ktl <+: l := by
            have h2 := ih ktl 0 (by simpa using ⟨w, hwtl⟩)
            simpa using h2
          rcases htl with ⟨w2, hw2⟩
          exact ⟨w2, by simp [hw2]⟩
      | succ j =>
        simp only [List.drop_succ_cons] at hp ⊢
        exact ih kw j hp

theorem dot_window (q : Char → Bool) (t kw : Str) (hq : ∀ c ∈ kw, q c = true) :
    (∃ j, j ≤ (t.takeWhile q).length ∧ kw.isPrefixOf (t.drop j) = true)
      ↔ strIncludes (t.takeWhile q) kw = true := by
  rw [strIncludes_true_iff]
  constructor
  · rintro ⟨j, hj, hpre⟩
    have h1 := prefix_to_takeWhile q t kw j hq hj (List.isPrefixOf_iff_prefix.mp hpre)
    exact h1.isInfix.trans (List.drop_suffix j _).isInfix
  · rintro ⟨u, v, huv⟩
    refine ⟨u.length, ?_, ?_⟩
    · have hlen : (t.takeWhile q).length = u.length + (kw.length + v.length) := by
        rw [← huv]
        simp [List.length_append]
      omega
    · apply List.isPrefixOf_iff_prefix.mpr
      apply prefix_of_takeWhile q t kw u.length
      rw [← huv, List.append_assoc, List.drop_left]
      exact ⟨v, rfl⟩


theorem ws_max_bridge (t kw : Str) (hkw : kw ≠ []) (hws : ∀ c ∈ kw, isWsChar c = false) :
    (∃ j, 1 ≤ j ∧ j ≤ (wsRun t).length
        ∧ ∃ k, k ≤ (wordRun (t.drop j)).length ∧ kw.isPrefixOf ((t.drop j).drop k) = true)
      ↔ (0 < (wsRun t).length
        ∧ ∃ k, k ≤ (wordRun (t.drop (wsRun t).length)).length
            ∧ kw.isPrefixOf ((t.drop (wsRun t).length).drop k) = true) := by
  constructor
  · rintro ⟨j, h1, hj, k, hk, hpre⟩
    have hje : j = (wsRun t).length := by
      by_contra hne
      have hjlt : j < (wsRun t).length := by omega
      rcases head_drop_takeWhile isWsChar t j hjlt with ⟨c, hc, hwc⟩
      have hwr : wordRun (t.drop j) = [] :=
        takeWhile_head_false isWordChar (t.drop j) c hc (ws_not_word c hwc)
      rw [hwr] at hk
      simp only [List.length_nil, Nat.le_zero] at hk
      subst hk
      simp only [List.drop_zero] at hpre
      cases kw with
      | nil => exact hkw rfl
      | cons k0 ktl =>
        cases ht : t.drop j with
        | nil => rw [ht] at hpre; simp at hpre
        | cons x xs =>
          rw [ht] at hpre hc
          rw [List.isPrefixOf_cons₂, Bool.and_eq_true, beq_iff_eq] at hpre
          simp only [List.head?_cons, Option.some.injEq] at hc
          have hbad := hws k0 (by simp)
          rw [hpre.1, hc, hwc] at hbad
          exact absurd hbad (by simp)
    subst hje
    exact ⟨by omega, k, hk, hpre⟩
  · rintro ⟨hpos, k, hk, hpre⟩
    exact ⟨(wsRun t).length, by omega, le_refl _, k, hk, hpre⟩

theorem call_max_bridge (t : Str) :
    (∃ m, m ≤ (wordRun t).length ∧ ∃ h, h ≤ (wsRun (t.drop m)).length
        ∧ ((t.drop m).drop h).head? = some '(')
      ↔ ((t.drop (wordRun t).length).drop
          (wsRun (t.drop (wordRun t).length)).length).head? = some '(' := by
  constructor
  · rintro ⟨m, hm, h, hh, hhead⟩
    have hme : m = (wordRun t).length := by
      by_contra hne
      have hlt : m < (wordRun t).length := by omega
      rcases head_drop_takeWhile isWordChar t m hlt with ⟨c, hc, hwc⟩
      have hwr : wsRun (t.drop m) = [] :=
        takeWhile_head_false isWsChar (t.drop m) c hc (word_not_ws c hwc)
      rw [hwr] at hh
      simp only [List.length_nil, Nat.le_zero] at hh
      subst hh
      simp only [List.drop_zero] at hhead
      rw [hhead] at hc
      simp only [Option.some.injEq] at hc
      rw [← hc] at hwc
      exact absurd hwc (by decide)
    subst hme
    have hhe : h = (wsRun (t.drop (wordRun t).length)).length := by
      by_contra hne
      have hlt : h < (wsRun (t.drop (wordRun t).length)).length := by omega
      rcases head_drop_takeWhile isWsChar (t.drop (wordRun t).length) h hlt with ⟨c, hc, hwc⟩
      rw [hhead] at hc
      simp only [Option.some.injEq] at hc
      rw [← hc] at hwc
      exact absurd hwc (by decide)
    subst hhe
    exact hhead
  · intro h
    exact ⟨(wordRun t).length, le_refl _, (wsRun (t.drop (wordRun t).length)).length,
      le_refl _, h⟩


theorem isSome_if_none {b : Bool} {x : Option Str} :
    ((if b = true then x else none).isSome = true) ↔ (b = true ∧ x.isSome = true) := by
  cases b with
  | true => simp
  | false => simp

theorem mem_of_mem_drop {x : Char} {l : Str} {n : Nat} (h : x ∈ List.drop n l) : x ∈ l :=
  (List.drop_subset n l) h

theorem ccMatch_spacec (ci : Bool) : ccMatch ci CharCls.spacec = isWsChar := rfl

theorem ccMatch_wordc (ci : Bool) : ccMatch ci CharCls.wordc = isWordChar := rfl

theorem matchSeq_lits_tailstar (ci : Bool) (kw t : Str)
    (hcc : ∀ c ∈ kw, ∀ x ∈ t, ccMatch ci (.lit c) x = (x == c)) (cc : CharCls) :
    (matchSeq ci (litAtoms kw ++ [RAtom.star cc]) t some).isSome = kw.isPrefixOf t := by
  rw [matchSeq_lits ci kw _ t some hcc]
  cases hp : kw.isPrefixOf t with
  | true =>
    rw [if_pos rfl]
    exact matchSeq_star_tail ci cc (t.drop kw.length)
  | false =>
    rw [if_neg (by simp)]
    rfl

theorem classSeq_at (kw t2 : Str) (hkw : kw ≠ []) (hfix : ∀ c ∈ kw, Char.toLower c = c)
    (hws : ∀ c ∈ kw, isWsChar c = false) (ht : ∀ x ∈ t2, Char.toLower x = x) :
    (matchSeq true (litAtoms ("class".toList)
        ++ (RAtom.plus CharCls.spacec :: RAtom.star CharCls.wordc
            :: (litAtoms kw ++ [RAtom.star CharCls.wordc]))) t2 some).isSome
      = (("class".toList).isPrefixOf t2 &&
          (decide (0 < (wsRun (t2.drop 5)).length) &&
            (List.range ((wordRun ((t2.drop 5).drop (wsRun (t2.drop 5)).length)).length
                + 1)).any
              (fun k => kw.isPrefixOf (((t2.drop 5).drop (wsRun (t2.drop 5)).length).drop k)))) := by
  have hlitcls : ∀ c ∈ ("class".toList), Char.toLower c = c := by decide
  rw [matchSeq_lits true ("class".toList) _ t2 some
    (fun c hc x hx => ccMatch_lit_eq true c x (hlitcls c hc) (ht x hx))]
  have h5 : ("class".toList).length = 5 := rfl
  rw [h5]
  cases hcp : ("class".toList).isPrefixOf t2 with
  | false =>
    rw [if_neg (by simp)]
    rfl
  | true =>
    rw [if_pos rfl, Bool.true_and, Bool.eq_iff_iff]
    rw [matchSeq_plus_isSome]
    rw [Bool.and_eq_true, decide_eq_true_eq, List.any_eq_true]
    constructor
    · rintro ⟨j, h1, hj, hrest⟩
      rw [matchSeq_star_isSome] at hrest
      rcases hrest with ⟨k, hk, hlast⟩
      rw [matchSeq_lits_tailstar true kw _
        (fun c hc x hx => ccMatch_lit_eq true c x (hfix c hc)
          (ht x (mem_of_mem_drop (mem_of_mem_drop (mem_of_mem_drop hx)))))] at hlast
      rw [ccMatch_spacec] at hj
      rw [ccMatch_wordc] at hk
      have hbr := (ws_max_bridge (t2.drop 5) kw hkw hws).mp
        ⟨j, h1, hj, k, hk, hlast⟩
      rcases hbr with ⟨hpos, k', hk', hpre⟩
      exact ⟨hpos, k', by simp only [List.mem_range, Nat.lt_succ_iff]; exact hk', hpre⟩
    · rintro ⟨hpos, k, hkmem, hpre⟩
      simp only [List.mem_range, Nat.lt_succ_iff] at hkmem
      have hbr := (ws_max_bridge (t2.drop 5) kw hkw hws).mpr ⟨hpos, k, hkmem, hpre⟩
      rcases hbr with ⟨j, h1, hj, k', hk', hpre'⟩
      refine ⟨j, h1, by rw [ccMatch_spacec]; exact hj, ?_⟩
      rw [matchSeq_star_isSome]
      refine ⟨k', by rw [ccMatch_wordc]; exact hk', ?_⟩
      rw [matchSeq_lits_tailstar true kw _
        (fun c hc x hx => ccMatch_lit_eq true c x (hfix c hc)
          (ht x (mem_of_mem_drop (mem_of_mem_drop (mem_of_mem_drop hx)))))]
      exact hpre'


theorem rtest_classWrap (kw t : Str) (hkw : kw ≠ []) (hfix : ∀ c ∈ kw, Char.toLower c = c)
    (hws : ∀ c ∈ kw, isWsChar c = false) (ht : ∀ x ∈ t, Char.toLower x = x) :
    rtest true (classWrap [litAtoms kw]) t = classPattern t kw := by
  have hshape : classWrap [litAtoms kw]
      = [litAtoms ("class".toList)
          ++ (RAtom.plus CharCls.spacec :: RAtom.star CharCls.wordc
              :: (litAtoms kw ++ [RAtom.star CharCls.wordc]))] := by
    simp [classWrap, altConcat, List.append_assoc]
  rw [hshape, Bool.eq_iff_iff, rtest_iff]
  unfold classPattern
  rw [List.any_eq_true]
  constructor
  · rintro ⟨n, hn, hm⟩
    rw [matchFirst_single_isSome, classSeq_at kw (t.drop n) hkw hfix hws
      (fun x hx => ht x (mem_of_mem_drop hx))] at hm
    refine ⟨n, by simp only [List.mem_range, Nat.lt_succ_iff]; exact hn, ?_⟩
    simpa only [List.drop_drop] using hm
  · rintro ⟨p, hp, hbody⟩
    simp only [List.mem_range, Nat.lt_succ_iff] at hp
    refine ⟨p, hp, ?_⟩
    rw [matchFirst_single_isSome, classSeq_at kw (t.drop p) hkw hfix hws
      (fun x hx => ht x (mem_of_mem_drop hx))]
    simpa only [List.drop_drop] using hbody


theorem funcSeq1_at (kw t2 : Str) (hkw : kw ≠ []) (hfix : ∀ c ∈ kw, Char.toLower c = c)
    (hws : ∀ c ∈ kw, isWsChar c = false) (ht : ∀ x ∈ t2, Char.toLower x = x) :
    (matchSeq true (litAtoms ("function".toList)
        ++ (RAtom.plus CharCls.spacec :: RAtom.star CharCls.wordc
            :: (litAtoms kw ++ [RAtom.star CharCls.wordc]))) t2 some).isSome
      = (("function".toList).isPrefixOf t2 &&
          (decide (0 < (wsRun (t2.drop 8)).length) &&
            (List.range ((wordRun ((t2.drop 8).drop (wsRun (t2.drop 8)).length)).length
                + 1)).any
              (fun k => kw.isPrefixOf (((t2.drop 8).drop (wsRun (t2.drop 8)).length).drop k)))) := by
  have hlitf : ∀ c ∈ ("function".toList), Char.toLower c = c := by decide
  rw [matchSeq_lits true ("function".toList) _ t2 some
    (fun c hc x hx => ccMatch_lit_eq true c x (hlitf c hc) (ht x hx))]
  have h8 : ("function".toList).length = 8 := rfl
  rw [h8]
  cases hcp : ("function".toList).isPrefixOf t2 with
  | false =>
    rw [if_neg (by simp)]
    rfl
  | true =>
    rw [if_pos rfl, Bool.true_and, Bool.eq_iff_iff]
    rw [matchSeq_plus_isSome]
    rw [Bool.and_eq_true, decide_eq_true_eq, List.any_eq_true]
    constructor
    · rintro ⟨j, h1, hj, hrest⟩
      rw [matchSeq_star_isSome] at hrest
      rcases hrest with ⟨k, hk, hlast⟩
      rw [matchSeq_lits_tailstar true kw _
        (fun c hc x hx => ccMatch_lit_eq true c x (hfix c hc)
          (ht x (mem_of_mem_drop (mem_of_mem_drop (mem_of_mem_drop hx)))))] at hlast
      rw [ccMatch_spacec] at hj
      rw [ccMatch_wordc] at hk
      have hbr := (ws_max_bridge (t2.drop 8) kw hkw hws).mp
        ⟨j, h1, hj, k, hk, hlast⟩
      rcases hbr with ⟨hpos, k', hk', hpre⟩
      exact ⟨hpos, k', by simp only [List.mem_range, Nat.lt_succ_iff]; exact hk', hpre⟩
    · rintro ⟨hpos, k, hkmem, hpre⟩
      simp only [List.mem_range, Nat.lt_succ_iff] at hkmem
      have hbr := (ws_max_bridge (t2.drop 8) kw hkw hws).mpr ⟨hpos, k, hkmem, hpre⟩
      rcases hbr with ⟨j, h1, hj, k', hk', hpre'⟩
      refine ⟨j, h1, by rw [ccMatch_spacec]; exact hj, ?_⟩
      rw [matchSeq_star_isSome]
      refine ⟨k', by rw [ccMatch_wordc]; exact hk', ?_⟩
      rw [matchSeq_lits_tailstar true kw _
        (fun c hc x hx => ccMatch_lit_eq true c x (hfix c hc)
          (ht x (mem_of_mem_drop (mem_of_mem_drop (mem_of_mem_drop hx)))))]
      exact hpre'

theorem callSeq_at (kw t2 : Str) (hfix : ∀ c ∈ kw, Char.toLower c = c)
    (ht : ∀ x ∈ t2, Char.toLower x = x) :
    ((matchSeq true (RAtom.star CharCls.wordc
        :: (litAtoms kw ++ [RAtom.star CharCls.wordc, RAtom.star CharCls.spacec,
              RAtom.ch (CharCls.lit '(')])) t2 some).isSome = true)
      ↔ ∃ j, j ≤ (wordRun t2).length ∧ kw.isPrefixOf (t2.drop j) = true ∧
          ((((t2.drop j).drop kw.length).drop
              (wordRun ((t2.drop j).drop kw.length)).length).drop
            (wsRun ((((t2.drop j).drop kw.length)).drop
              (wordRun ((t2.drop j).drop kw.length)).length)).length).head? = some '(' := by
  rw [matchSeq_star_isSome]
  rw [ccMatch_wordc]
  constructor
  · rintro ⟨j, hj, hrest⟩
    rw [matchSeq_lits true kw _ _ some
      (fun c hc x hx => ccMatch_lit_eq true c x (hfix c hc)
        (ht x (mem_of_mem_drop hx)))] at hrest
    rw [isSome_if_none] at hrest
    obtain ⟨hpre, htail⟩ := hrest
    refine ⟨j, hj, hpre, ?_⟩
    set u := ((t2.drop j).drop kw.length) with hu
    rw [matchSeq_star_isSome] at htail
    rcases htail with ⟨m, hm, htail⟩
    rw [matchSeq_star_isSome] at htail
    rcases htail with ⟨h, hh, htail⟩
    rw [matchSeq_ch_last] at htail
    rcases htail with ⟨c, cs, hcons, hlit⟩
    rw [ccMatch_lit_eq true '(' c (by decide)
      (ht c (mem_of_mem_drop (mem_of_mem_drop (mem_of_mem_drop (mem_of_mem_drop
        (hcons ▸ List.mem_cons_self c cs))))))] at hlit
    rw [ccMatch_wordc] at hm
    rw [ccMatch_spacec] at hh
    apply (call_max_bridge u).mp
    refine ⟨m, hm, h, hh, ?_⟩
    rw [hcons]
    simp only [List.head?_cons, Option.some.injEq]
    exact (beq_iff_eq.mp hlit).symm ▸ rfl
  · rintro ⟨j, hj, hpre, hhead⟩
    refine ⟨j, hj, ?_⟩
    rw [matchSeq_lits true kw _ _ some
      (fun c hc x hx => ccMatch_lit_eq true c x (hfix c hc)
        (ht x (mem_of_mem_drop hx)))]
    rw [isSome_if_none]
    refine ⟨hpre, ?_⟩
    set u := ((t2.drop j).drop kw.length) with hu
    have hb := (call_max_bridge u).mpr hhead
    rcases hb with ⟨m, hm, h, hh, hhd⟩
    rw [matchSeq_star_isSome]
    refine ⟨m, by rw [ccMatch_wordc]; exact hm, ?_⟩
    rw [matchSeq_star_isSome]
    refine ⟨h, by rw [ccMatch_spacec]; exact hh, ?_⟩
    rw [matchSeq_ch_last]
    cases hcase : ((u.drop m).drop h) with
    | nil => rw [hcase] at hhd; simp at hhd
    | cons c cs =>
      rw [hcase] at hhd
      simp only [List.head?_cons, Option.some.injEq] at hhd
      refine ⟨c, cs, rfl, ?_⟩
      rw [ccMatch_lit_eq true '(' c (by decide)
        (ht c (mem_of_mem_drop (mem_of_mem_drop (mem_of_mem_drop (mem_of_mem_drop
          (hcase ▸ List.mem_cons_self c cs))))))]
      rw [hhd]
      exact beq_self_eq_true '('


theorem isPrefixOf_ne_nil {kw t : Str} (h : kw.isPrefixOf t = true) (hkw : kw ≠ []) :
    t ≠ [] := by
  cases kw with
  | nil => exact absurd rfl hkw
  | cons k0 ktl =>
    cases t with
    | nil => simp at h
    | cons x xs => simp

theorem rtest_funcWrap (kw t : Str) (hkw : kw ≠ []) (hfix : ∀ c ∈ kw, Char.toLower c = c)
    (hws : ∀ c ∈ kw, isWsChar c = false) (ht : ∀ x ∈ t, Char.toLower x = x) :
    rtest true (funcWrap [litAtoms kw]) t = functionPattern t kw := by
  have hshape : funcWrap [litAtoms kw]
      = [litAtoms ("function".toList)
          ++ (RAtom.plus CharCls.spacec :: RAtom.star CharCls.wordc
              :: (litAtoms kw ++ [RAtom.star CharCls.wordc])),
         RAtom.star CharCls.wordc
          :: (litAtoms kw ++ [RAtom.star CharCls.wordc, RAtom.star CharCls.spacec,
                RAtom.ch (CharCls.lit '(')])] := by
    simp [funcWrap, altConcat, List.append_assoc]
  rw [hshape, Bool.eq_iff_iff, rtest_iff]
  unfold functionPattern
  rw [Bool.or_eq_true, List.any_eq_true, List.any_eq_true]
  constructor
  · rintro ⟨n, hn, hm⟩
    rw [matchFirst_pair_isSome, Bool.or_eq_true] at hm
    rcases hm with hm | hm
    · left
      rw [funcSeq1_at kw (t.drop n) hkw hfix hws
        (fun x hx => ht x (mem_of_mem_drop hx))] at hm
      exact ⟨n, by simp only [List.mem_range, Nat.lt_succ_iff]; exact hn,
        by simpa only [List.drop_drop] using hm⟩
    · right
      rcases (callSeq_at kw (t.drop n) hfix
          (fun x hx => ht x (mem_of_mem_drop hx))).mp hm with ⟨j, hj, hpre, hhead⟩
      have hdd : (t.drop n).drop j = t.drop (n + j) := by rw [List.drop_drop]
      rw [hdd] at hpre hhead
      have hplen : n + j < t.length := by
        have hne := isPrefixOf_ne_nil hpre hkw
        rcases Nat.lt_or_ge (n + j) t.length with h | h
        · exact h
        · exact absurd (List.drop_eq_nil_of_le h) hne
      refine ⟨n + j, by simp only [List.mem_range, Nat.lt_succ_iff]; omega, ?_⟩
      rw [Bool.and_eq_true, decide_eq_true_eq]
      exact ⟨hpre, hhead⟩
  · rintro (⟨p, hp, hbody⟩ | ⟨p, hp, hbody⟩)
    · simp only [List.mem_range, Nat.lt_succ_iff] at hp
      refine ⟨p, hp, ?_⟩
      rw [matchFirst_pair_isSome, Bool.or_eq_true]
      left
      rw [funcSeq1_at kw (t.drop p) hkw hfix hws
        (fun x hx => ht x (mem_of_mem_drop hx))]
      simpa only [List.drop_drop] using hbody
    · simp only [List.mem_range, Nat.lt_succ_iff] at hp
      rw [Bool.and_eq_true, decide_eq_true_eq] at hbody
      obtain ⟨hpre, hhead⟩ := hbody
      refine ⟨p, hp, ?_⟩
      rw [matchFirst_pair_isSome, Bool.or_eq_true]
      right
      apply (callSeq_at kw (t.drop p) hfix
        (fun x hx => ht x (mem_of_mem_drop hx))).mpr
      have hdd : (t.drop p).drop 0 = t.drop p := by rw [List.drop_zero]
      exact ⟨0, Nat.zero_le _, by rw [hdd]; exact hpre, by rw [hdd]; exact hhead⟩


theorem matchSeq_ch_cons (ci : Bool) (cc : CharCls) (rest : List RAtom) (t : Str)
    (K : Str → Option Str) :
    (matchSeq ci (.ch cc :: rest) t K).isSome = true
      ↔ ∃ c cs, t = c :: cs ∧ ccMatch ci cc c = true
          ∧ (matchSeq ci rest cs K).isSome = true := by
  cases t with
  | nil =>
    show (none : Option Str).isSome = true ↔ _
    simp
  | cons c cs =>
    show ((if ccMatch ci cc c then matchSeq ci rest cs K else none).isSome = true) ↔ _
    cases hcc : ccMatch ci cc c with
    | true =>
      rw [if_pos rfl]
      constructor
      · exact fun h => ⟨c, cs, rfl, hcc, h⟩
      · rintro ⟨c', cs', he, _, h⟩
        cases he
        exact h
    | false =>
      rw [if_neg (by simp)]
      simp only [Option.isSome_none, Bool.false_eq_true, false_iff]
      rintro ⟨c', cs', he, hcc', _⟩
      cases he
      rw [hcc] at hcc'
      exact Bool.false_ne_true hcc'

theorem matchSeq_lits_end (ci : Bool) (kw t : Str)
    (hcc : ∀ c ∈ kw, ∀ x ∈ t, ccMatch ci (.lit c) x = (x == c)) :
    (matchSeq ci (litAtoms kw) t some).isSome = kw.isPrefixOf t := by
  have h := matchSeq_lits ci kw [] t some hcc
  rw [List.append_nil] at h
  rw [h]
  cases hp : kw.isPrefixOf t with
  | true => rw [if_pos rfl]; rfl
  | false => rw [if_neg (by simp)]; rfl

theorem ccMatch_dot (ci : Bool) :
    ccMatch ci CharCls.dot = fun c => !(c = '\n' || c = '\x0d') := rfl

theorem not_ws_dot (c : Char) (h : isWsChar c = false) :
    (!(c = '\n' || c = '\x0d')) = true := by
  by_cases h1 : c = '\n'
  · subst h1; simp [isWsChar] at h
  · by_cases h2 : c = '\x0d'
    · subst h2; simp [isWsChar] at h
    · simp [h1, h2]

theorem commentSeq1_at (kw t2 : Str) (hfix : ∀ c ∈ kw, Char.toLower c = c)
    (hws : ∀ c ∈ kw, isWsChar c = false) (ht : ∀ x ∈ t2, Char.toLower x = x) :
    ((matchSeq true (litAtoms ("//".toList)
        ++ (RAtom.star CharCls.dot :: litAtoms kw)) t2 some).isSome = true)
      ↔ (("//".toList).isPrefixOf t2 = true
          ∧ strIncludes ((t2.drop 2).takeWhile (fun c => !(c = '\n' || c = '\x0d'))) kw
              = true) := by
  have hlit2 : ∀ c ∈ ("//".toList), Char.toLower c = c := by decide
  rw [matchSeq_lits true ("//".toList) _ t2 some
    (fun c hc x hx => ccMatch_lit_eq true c x (hlit2 c hc) (ht x hx))]
  have h2 : ("//".toList).length = 2 := rfl
  rw [h2]
  cases hcp : ("//".toList).isPrefixOf t2 with
  | false =>
    rw [if_neg (by simp)]
    simp
  | true =>
    rw [if_pos rfl]
    simp only [true_and]
    rw [matchSeq_star_isSome]
    rw [ccMatch_dot]
    rw [← dot_window (fun c => !(c = '\n' || c = '\x0d')) (t2.drop 2) kw
      (fun c hc => not_ws_dot c (hws c hc))]
    constructor
    · rintro ⟨j, hj, hl⟩
      rw [matchSeq_lits_end true kw _
        (fun c hc x hx => ccMatch_lit_eq true c x (hfix c hc)
          (ht x (mem_of_mem_drop (mem_of_mem_drop hx))))] at hl
      exact ⟨j, hj, hl⟩
    · rintro ⟨j, hj, hl⟩
      refine ⟨j, hj, ?_⟩
      rw [matchSeq_lits_end true kw _
        (fun c hc x hx => ccMatch_lit_eq true c x (hfix c hc)
          (ht x (mem_of_mem_drop (mem_of_mem_drop hx))))]
      exact hl

theorem commentSeq2_at (kw t2 : Str) (hfix : ∀ c ∈ kw, Char.toLower c = c)
    (hws : ∀ c ∈ kw, isWsChar c = false) (ht : ∀ x ∈ t2, Char.toLower x = x) :
    ((matchSeq true (RAtom.ch (CharCls.lit '*')
        :: (RAtom.star CharCls.dot :: litAtoms kw)) t2 some).isSome = true)
      ↔ (t2.head? = some '*'
          ∧ strIncludes ((t2.drop 1).takeWhile (fun c => !(c = '\n' || c = '\x0d'))) kw
              = true) := by
  rw [matchSeq_ch_cons]
  constructor
  · rintro ⟨c, cs, he, hcc, hrest⟩
    subst he
    rw [ccMatch_lit_eq true '*' c (by decide) (ht c (by simp))] at hcc
    have hc : c = '*' := beq_iff_eq.mp hcc
    subst hc
    refine ⟨rfl, ?_⟩
    simp only [List.drop_succ_cons, List.drop_zero]
    rw [matchSeq_star_isSome, ccMatch_dot] at hrest
    rw [← dot_window (fun c => !(c = '\n' || c = '\x0d')) cs kw
      (fun c hc => not_ws_dot c (hws c hc))]
    rcases hrest with ⟨j, hj, hl⟩
    rw [matchSeq_lits_end true kw _
      (fun c' hc' x hx => ccMatch_lit_eq true c' x (hfix c' hc')
        (ht x (by simp [mem_of_mem_drop hx])))] at hl
    exact ⟨j, hj, hl⟩
  · rintro ⟨hhead, hincl⟩
    cases t2 with
    | nil => simp at hhead
    | cons c cs =>
      simp only [List.head?_cons, Option.some.injEq] at hhead
      subst hhead
      refine ⟨'*', cs, rfl, ?_, ?_⟩
      · rw [ccMatch_lit_eq true '*' '*' (by decide) (ht '*' (by simp))]
        exact beq_self_eq_true '*'
      · simp only [List.drop_succ_cons, List.drop_zero] at hincl
        rw [matchSeq_star_isSome, ccMatch_dot]
        rw [← dot_window (fun c => !(c = '\n' || c = '\x0d')) cs kw
          (fun c hc => not_ws_dot c (hws c hc))] at hincl
        rcases hincl with ⟨j, hj, hl⟩
        refine ⟨j, hj, ?_⟩
        rw [matchSeq_lits_end true kw _
          (fun c' hc' x hx => ccMatch_lit_eq true c' x (hfix c' hc')
            (ht x (by simp [mem_of_mem_drop hx])))]
        exact hl

theorem rtest_commentWrap (kw t : Str) (hfix : ∀ c ∈ kw, Char.toLower c = c)
    (hws : ∀ c ∈ kw, isWsChar c = false) (ht : ∀ x ∈ t, Char.toLower x = x) :
    rtest true (commentWrap [litAtoms kw]) t = commentPattern t kw := by
  have hshape : commentWrap [litAtoms kw]
      = [litAtoms ("//".toList) ++ (RAtom.star CharCls.dot :: litAtoms kw),
         RAtom.ch (CharCls.lit '*') :: (RAtom.star CharCls.dot :: litAtoms kw)] := by
    simp [commentWrap, altConcat, litAtoms, List.append_assoc]
  rw [hshape, Bool.eq_iff_iff, rtest_iff]
  unfold commentPattern
  rw [List.any_eq_true]
  constructor
  · rintro ⟨n, hn, hm⟩
    rw [matchFirst_pair_isSome, Bool.or_eq_true] at hm
    refine ⟨n, by simp only [List.mem_range, Nat.lt_succ_iff]; exact hn, ?_⟩
    rw [Bool.or_eq_true, Bool.and_eq_true, Bool.and_eq_true, decide_eq_true_eq]
    rcases hm with hm | hm
    · left
      rcases (commentSeq1_at kw (t.drop n) hfix hws
        (fun x hx => ht x (mem_of_mem_drop hx))).mp hm with ⟨hp, hi⟩
      exact ⟨hp, hi⟩
    · right
      rcases (commentSeq2_at kw (t.drop n) hfix hws
        (fun x hx => ht x (mem_of_mem_drop hx))).mp hm with ⟨hp, hi⟩
      exact ⟨hp, hi⟩
  · rintro ⟨p, hp, hbody⟩
    simp only [List.mem_range, Nat.lt_succ_iff] at hp
    refine ⟨p, hp, ?_⟩
    rw [matchFirst_pair_isSome, Bool.or_eq_true]
    rw [Bool.or_eq_true, Bool.and_eq_true, Bool.and_eq_true, decide_eq_true_eq] at hbody
    rcases hbody with ⟨h1, h2⟩ | ⟨h1, h2⟩
    · left
      exact (commentSeq1_at kw (t.drop p) hfix hws
        (fun x hx => ht x (mem_of_mem_drop hx))).mpr ⟨h1, h2⟩
    · right
      exact (commentSeq2_at kw (t.drop p) hfix hws
        (fun x hx => ht x (mem_of_mem_drop hx))).mpr ⟨h1, h2⟩


theorem matchFirst_lits (ci : Bool) (kw t : Str)
    (hcc : ∀ c ∈ kw, ∀ x ∈ t, ccMatch ci (.lit c) x = (x == c)) :
    matchFirst ci [litAtoms kw] t
      = if kw.isPrefixOf t then some kw.length else none := by
  show (match matchSeq ci (litAtoms kw) t some with
    | some rem => some (t.length - rem.length)
    | none => matchFirst ci [] t) = _
  have h := matchSeq_lits ci kw [] t some hcc
  rw [List.append_nil] at h
  rw [h]
  cases hp : kw.isPrefixOf t with
  | true =>
    rw [if_pos rfl, if_pos rfl]
    show some (t.length - (t.drop kw.length).length) = some kw.length
    rw [List.length_drop]
    have hle : kw.length ≤ t.length := (List.isPrefixOf_iff_prefix.mp hp).length_le
    congr 1
    omega
  | false =>
    rw [if_neg (by simp), if_neg (by simp)]
    rfl

theorem countMAux_lits (k0 : Char) (ktl : Str) :
    ∀ (s : Str) (n : Nat),
      countMAux false [litAtoms (k0 :: ktl)] s n = countOccurAux s (k0 :: ktl) n := by
  have hcc : ∀ (t : Str), ∀ c ∈ (k0 :: ktl), ∀ x ∈ t,
      ccMatch false (.lit c) x = (x == c) := fun t c hc x hx => rfl
  intro s
  induction s with
  | nil =>
    intro n
    show (if (matchFirst false [litAtoms (k0 :: ktl)] []).isSome then 1 else 0)
      = countOccurAux [] (k0 :: ktl) n
    rw [matchFirst_lits false (k0 :: ktl) [] (hcc [])]
    rw [if_neg (by simp)]
    simp [countOccurAux]
  | cons c cs ih =>
    intro n
    cases n with
    | succ m =>
      show countMAux false [litAtoms (k0 :: ktl)] cs m = countOccurAux cs (k0 :: ktl) m
      exact ih m
    | zero =>
      rw [show countMAux false [litAtoms (k0 :: ktl)] (c :: cs) 0
          = (match matchFirst false [litAtoms (k0 :: ktl)] (c :: cs) with
            | none => countMAux false [litAtoms (k0 :: ktl)] cs 0
            | some 0 => 1 + countMAux false [litAtoms (k0 :: ktl)] cs 0
            | some (Nat.succ l) => 1 + countMAux false [litAtoms (k0 :: ktl)] cs l)
          from rfl]
      rw [matchFirst_lits false (k0 :: ktl) (c :: cs) (hcc _)]
      rw [show countOccurAux (c :: cs) (k0 :: ktl) 0
          = if (k0 :: ktl).isPrefixOf (c :: cs) then
              1 + countOccurAux cs (k0 :: ktl) ((k0 :: ktl).length - 1)
            else countOccurAux cs (k0 :: ktl) 0 from rfl]
      cases hp : (k0 :: ktl).isPrefixOf (c :: cs) with
      | true =>
        rw [if_pos rfl, if_pos rfl]
        show 1 + countMAux false [litAtoms (k0 :: ktl)] cs ktl.length
          = 1 + countOccurAux cs (k0 :: ktl) ((k0 :: ktl).length - 1)
        rw [ih ktl.length]
        rfl
      | false =>
        rw [if_neg (by simp), if_neg (by simp)]
        exact ih 0

theorem countMatches_lits (kw s : Str) (hkw : kw ≠ []) :
    countMatches false [litAtoms kw] s = countOccur s kw := by
  cases kw with
  | nil => exact absurd rfl hkw
  | cons k0 ktl => exact countMAux_lits k0 ktl s 0


theorem parseTokAux_plain :
    ∀ (kw : Str), (∀ c ∈ kw, plainChar c = true) →
      ∀ (cur : List RAtom) (alts : List (List RAtom)),
        parseTokAux kw cur alts = .ok (alts ++ [cur.reverse ++ litAtoms kw]) := by
  intro kw
  induction kw with
  | nil =>
    intro _ cur alts
    show Except.ok (alts ++ [cur.reverse]) = _
    rw [litAtoms, List.map_nil, List.append_nil]
  | cons c rest ih =>
    intro hp cur alts
    have hs : isSpecialChar c = false := by
      have h := hp c (by simp)
      unfold plainChar at h
      simpa using h
    rw [parseTokAux.eq_def]
    dsimp only
    rw [if_neg (fun h => by subst h; exact absurd hs (by decide))]
    rw [if_neg (fun h => by subst h; exact absurd hs (by decide))]
    rw [if_neg (fun h => by subst h; exact absurd hs (by decide))]
    rw [if_neg (fun h => by subst h; exact absurd hs (by decide))]
    rw [if_neg (fun h => by subst h; exact absurd hs (by decide))]
    rw [if_neg (fun h => by subst h; exact absurd hs (by decide))]
    rw [if_neg (by simp [hs])]
    rw [ih (fun d hd => hp d (by simp [hd])) (.ch (.lit c) :: cur) alts]
    simp [litAtoms, List.append_assoc]

theorem parseToken_plain (kw : Str) (hp : ∀ c ∈ kw, plainChar c = true) :
    parseToken kw = .ok [litAtoms kw] := by
  unfold parseToken
  rw [parseTokAux_plain kw hp [] []]
  simp

theorem fallbackScoreAux_cons (kw : Str) (rest : List Str) (lowCode : Str) (q : ℚ) :
    fallbackScoreAux (kw :: rest) lowCode q
      = (match parseToken kw with
        | Except.error e => Except.error e
        | Except.ok kp =>
          let n := countMatches false kp lowCode
          if n ≠ 0 then
            let s1 := q + (n : ℚ) * (1 / 100)
            let s2 := if rtest true (classWrap kp) lowCode then s1 + 3 / 10 else s1
            let s3 := if rtest true (funcWrap kp) lowCode then s2 + 2 / 10 else s2
            let s4 := if rtest true (commentWrap kp) lowCode then s3 + 1 / 10 else s3
            fallbackScoreAux rest lowCode s4
          else fallbackScoreAux rest lowCode q) := rfl

theorem fallbackScoreAux_step (kw : Str) (kp : Pattern) (rest : List Str)
    (lowCode : Str) (q : ℚ) (hkp : parseToken kw = Except.ok kp) :
    fallbackScoreAux (kw :: rest) lowCode q
      = (let n := countMatches false kp lowCode
        if n ≠ 0 then
          let s1 := q + (n : ℚ) * (1 / 100)
          let s2 := if rtest true (classWrap kp) lowCode then s1 + 3 / 10 else s1
          let s3 := if rtest true (funcWrap kp) lowCode then s2 + 2 / 10 else s2
          let s4 := if rtest true (commentWrap kp) lowCode then s3 + 1 / 10 else s3
          fallbackScoreAux rest lowCode s4
        else fallbackScoreAux rest lowCode q) := by
  rw [fallbackScoreAux_cons, hkp]

theorem fallbackScoreAux_plain :
    ∀ (tokens : List Str) (raw : Str) (q : ℚ),
      (∀ kw ∈ tokens, kw ≠ []
        ∧ (∀ c ∈ kw, plainChar c = true ∧ isWsChar c = false ∧ Char.toLower c = c)) →
      fallbackScoreAux tokens (lowerStr raw) q
        = .ok (tokens.foldl
            (fun score keyword =>
              let n := countOccur (lowerStr raw) keyword
              if n ≠ 0 then
                let s1 := score + (n : ℚ) * (1 / 100)
                let s2 := if classPattern (lowerStr raw) keyword then s1 + 3 / 10 else s1
                let s3 := if functionPattern (lowerStr raw) keyword then s2 + 2 / 10 else s2
                if commentPattern (lowerStr raw) keyword then s3 + 1 / 10 else s3
              else score) q) := by
  intro tokens
  induction tokens with
  | nil =>
    intro raw q _
    rfl
  | cons kw rest ih =>
    intro raw q h
    obtain ⟨hkw, hch⟩ := h kw (by simp)
    have hrest : ∀ k ∈ rest, k ≠ []
        ∧ (∀ c ∈ k, plainChar c = true ∧ isWsChar c = false ∧ Char.toLower c = c) :=
      fun k hk => h k (List.mem_cons_of_mem kw hk)
    have hfix : ∀ c ∈ kw, Char.toLower c = c := fun c hc => (hch c hc).2.2
    have hws : ∀ c ∈ kw, isWsChar c = false := fun c hc => (hch c hc).2.1
    have hlow : ∀ x ∈ lowerStr raw, Char.toLower x = x := mem_lowerStr raw
    rw [fallbackScoreAux_step kw [litAtoms kw] rest (lowerStr raw) q
      (parseToken_plain kw (fun c hc => (hch c hc).1))]
    rw [countMatches_lits kw (lowerStr raw) hkw]
    rw [rtest_classWrap kw (lowerStr raw) hkw hfix hws hlow]
    rw [rtest_funcWrap kw (lowerStr raw) hkw hfix hws hlow]
    rw [rtest_commentWrap kw (lowerStr raw) hfix hws hlow]
    rw [List.foldl_cons]
    dsimp only
    by_cases hn : countOccur (lowerStr raw) kw = 0
    · rw [if_neg (fun hcon => hcon hn), if_neg (fun hcon => hcon hn)]
      exact ih raw q hrest
    · rw [if_pos hn, if_pos hn]
      exact ih raw _ hrest

theorem fallbackItemScoreRx_plain (tokens : List Str) (rawCode : Str)
    (h : ∀ kw ∈ tokens, kw ≠ []
      ∧ (∀ c ∈ kw, plainChar c = true ∧ isWsChar c = false ∧ Char.toLower c = c)) :
    fallbackItemScoreRx tokens rawCode = .ok (fallbackItemScore tokens rawCode) := by
  unfold fallbackItemScoreRx fallbackItemScore
  exact fallbackScoreAux_plain tokens rawCode 0 h


theorem wsSplitAux_chars :
    ∀ (s acc w : Str), w ∈ wsSplitAux s acc → ∀ c ∈ w,
      (c ∈ s ∧ isWsChar c = false) ∨ c ∈ acc := by
  intro s
  induction s with
  | nil =>
    intro acc w hw c hc
    unfold wsSplitAux at hw
    by_cases ha : acc.isEmpty
    · rw [if_pos ha] at hw
      simp at hw
    · rw [if_neg ha] at hw
      simp only [List.mem_singleton] at hw
      subst hw
      exact Or.inr (by simpa using hc)
  | cons c0 cs ih =>
    intro acc w hw c hc
    unfold wsSplitAux at hw
    cases hws : isWsChar c0 with
    | true =>
      rw [if_pos hws] at hw
      by_cases ha : acc.isEmpty
      · rw [if_pos ha] at hw
        rcases ih [] w hw c hc with ⟨hcs, hnw⟩ | hnil
        · exact Or.inl ⟨by simp [hcs], hnw⟩
        · simp at hnil
      · rw [if_neg ha] at hw
        rcases List.mem_cons.mp hw with hw | hw
        · subst hw
          exact Or.inr (by simpa using hc)
        · rcases ih [] w hw c hc with ⟨hcs, hnw⟩ | hnil
          · exact Or.inl ⟨by simp [hcs], hnw⟩
          · simp at hnil
    | false =>
      rw [if_neg (by simp [hws])] at hw
      rcases ih (c0 :: acc) w hw c hc with ⟨hcs, hnw⟩ | hacc
      · exact Or.inl ⟨by simp [hcs], hnw⟩
      · rcases List.mem_cons.mp hacc with he | hacc2
        · subst he
          exact Or.inl ⟨by simp, hws⟩
        · exact Or.inr hacc2

theorem queryTokens_chars (query kw : Str) (hkw : kw ∈ queryTokens query) :
    kw ≠ [] ∧ ∀ c ∈ kw, isWsChar c = false ∧ Char.toLower c = c := by
  unfold queryTokens at hkw
  rcases List.mem_filter.mp hkw with ⟨hmem, hlen⟩
  constructor
  · intro he
    subst he
    simp at hlen
  · intro c hc
    rcases wsSplitAux_chars (lowerStr query) [] kw hmem c hc with ⟨hcs, hnws⟩ | hfalse
    · exact ⟨hnws, mem_lowerStr query c hcs⟩
    · simp at hfalse

theorem fallbackItemScoreRx_query (query rawCode : Str)
    (hplain : ∀ kw ∈ queryTokens query, ∀ c ∈ kw, plainChar c = true) :
    fallbackItemScoreRx (queryTokens query) rawCode
      = .ok (fallbackItemScore (queryTokens query) rawCode) :=
  fallbackItemScoreRx_plain (queryTokens query) rawCode
    (fun kw hkw => ⟨(queryTokens_chars query kw hkw).1,
      fun c hc => ⟨hplain kw hkw c hc, ((queryTokens_chars query kw hkw).2 c hc).1,
        ((queryTokens_chars query kw hkw).2 c hc).2⟩⟩)


/-! ### C1 and C2: the two scoring modes -/

/-- The concrete PREBUILT example of C1: a record whose only indexed term is
`emailnotifier`, with weight 1. -/
def emailNotifierRecord : CodeMetadata :=
  { file := "EmailNotifier.ts".toList, code := [],
    keywords := [("emailnotifier".toList, 1)], checksum := [] }

/-- C1: in PREBUILT mode the score of a file is the sum, over the query
tokens, of the indexed weight of the token times 0.01 plus, for every
distinct indexed term containing the token as a proper substring, that term
weight times 0.005; and for query `email` a file whose only indexed term is
`emailnotifier` (weight 1) scores 1/200 > 0. -/
theorem C1_prebuilt_score :
    (∀ (tokens : List Str) (kmap : List (Str × Nat)),
      prebuiltFileScore tokens kmap =
        (tokens.map (fun kw =>
          (getW kmap kw : ℚ) * (1 / 100) +
          ((kmap.filter (fun p => strIncludes p.1 kw && !(p.1 == kw))).map
            (fun p => (p.2 : ℚ) * (5 / 1000))).sum)).sum)
    ∧ keywordSearch ("email".toList) [emailNotifierRecord]
        = [("EmailNotifier.ts".toList, 1 / 200)]
    ∧ (0 : ℚ) < 1 / 200 := by
  refine ⟨fun tokens kmap => ?_, by decide, by norm_num⟩
  unfold prebuiltFileScore
  rw [foldl_body_sum _ (fun kw =>
      (getW kmap kw : ℚ) * (1 / 100) +
      ((kmap.filter (fun p => strIncludes p.1 kw && !(p.1 == kw))).map
        (fun p => (p.2 : ℚ) * (5 / 1000))).sum)
    (fun a x => foldl_add_if_sum _ _ kmap (a + (getW kmap x : ℚ) * (1 / 100)) |>.trans
      (by rw [add_assoc])) tokens 0, zero_add]

/-- The literal-reading FALLBACK score as a sum over the tokens.  The
occurrence gate of the source (boosts are only added when the count is
positive) is invisible: each pattern forces a positive count. -/
theorem fallbackItemScore_sum (tokens : List Str) (rawCode : Str) :
    fallbackItemScore tokens rawCode =
      (tokens.map (fun kw =>
        (countOccur (lowerStr rawCode) kw : ℚ) * (1 / 100)
        + (if classPattern (lowerStr rawCode) kw then 3 / 10 else 0)
        + (if functionPattern (lowerStr rawCode) kw then 2 / 10 else 0)
        + (if commentPattern (lowerStr rawCode) kw then 1 / 10 else 0))).sum := by
  unfold fallbackItemScore
  rw [foldl_body_sum _ _ (fun a x => fallback_body rawCode a x) tokens 0, zero_add]

theorem accumulateScoresE_cons (score : CodeMetadata → Except RxErr ℚ)
    (item : CodeMetadata) (rest : List CodeMetadata) (scores : List (Str × ℚ)) :
    accumulateScoresE score (item :: rest) scores
      = (match score item with
        | Except.error e => Except.error e
        | Except.ok s =>
          accumulateScoresE score rest
            (if 0 < s then setA scores item.file s else scores)) := rfl

theorem accumulateScoresE_step (score : CodeMetadata → Except RxErr ℚ)
    (item : CodeMetadata) (rest : List CodeMetadata) (scores : List (Str × ℚ))
    (s : ℚ) (hs : score item = .ok s) :
    accumulateScoresE score (item :: rest) scores
      = accumulateScoresE score rest
          (if 0 < s then setA scores item.file s else scores) := by
  rw [accumulateScoresE_cons, hs]

theorem accumulateScoresE_plain (tokens : List Str)
    (hpl : ∀ kw ∈ tokens, kw ≠ []
      ∧ (∀ c ∈ kw, plainChar c = true ∧ isWsChar c = false ∧ Char.toLower c = c)) :
    ∀ (metadata : List CodeMetadata) (scores : List (Str × ℚ)),
      accumulateScoresE (fun item => fallbackItemScoreRx tokens item.code) metadata scores
        = .ok (metadata.foldl
            (fun scores item =>
              if 0 < fallbackItemScore tokens item.code then
                setA scores item.file (fallbackItemScore tokens item.code)
              else scores) scores) := by
  intro metadata
  induction metadata with
  | nil =>
    intro scores
    rfl
  | cons item rest ih =>
    intro scores
    rw [accumulateScoresE_step _ item rest scores (fallbackItemScore tokens item.code)
      (fallbackItemScoreRx_plain tokens item.code hpl)]
    rw [List.foldl_cons, ih]

/-- The two `keywordSearch` models agree on every query whose tokens carry
no regex metacharacters: the dynamically built regexes then degenerate to
literal matching. -/
theorem keywordSearchRx_plain (query : Str) (metadata : List CodeMetadata)
    (hplain : ∀ kw ∈ queryTokens query, ∀ c ∈ kw, plainChar c = true) :
    keywordSearchRx query metadata = .ok (keywordSearch query metadata) := by
  unfold keywordSearchRx keywordSearch
  by_cases hq : (queryTokens query).isEmpty
  · rw [if_pos hq, if_pos hq]
  · rw [if_neg hq, if_neg hq]
    by_cases hk : hasKeywordIndices metadata
    · rw [if_pos hk, if_pos hk]
    · rw [if_neg hk, if_neg hk]
      rw [accumulateScoresE_plain (queryTokens query)
        (fun kw hkw => ⟨(queryTokens_chars query kw hkw).1,
          fun c hc => ⟨hplain kw hkw c hc, ((queryTokens_chars query kw hkw).2 c hc).1,
            ((queryTokens_chars query kw hkw).2 c hc).2⟩⟩) metadata []]
      rfl

/-- A record with no prebuilt terms, putting the search in FALLBACK mode. -/
def abcRecord : CodeMetadata :=
  { file := "f.ts".toList, code := "abc".toList, keywords := [], checksum := [] }

/-- C2 (counterexample): the FALLBACK scorer builds its regexes from the raw
token, so the count is not the literal substring count of the claim.  The
query `a.c` has the single token `a.c`; on the text `abc` the program counts
one regex match (the dot matches `b`) and scores the file 0.01 through the
real search path, while the literal count of the claim is 0, which would
exclude the file; and the token `*ab` makes the regex constructor throw
instead of producing any score. -/
theorem C2_counterexample :
    queryTokens ("a.c".toList) = [("a.c".toList)]
    ∧ fallbackItemScoreRx [("a.c".toList)] ("abc".toList) = .ok (1 / 100)
    ∧ countOccur (lowerStr ("abc".toList)) ("a.c".toList) = 0
    ∧ keywordSearchRx ("a.c".toList) [abcRecord] = .ok [("f.ts".toList, 1 / 100)]
    ∧ keywordSearchRx ("*ab".toList) [abcRecord] = .error RxErr.invalid := by
  refine ⟨by decide, by decide, by decide, by decide, by decide⟩

/-- C2 (amended): in FALLBACK mode the per-token regexes are built from the
raw token, so for every query whose tokens contain no regex metacharacters —
on which regex matching is literal matching — the score of a file is the sum,
over the query tokens, of the case-insensitive occurrence count of the token
in the raw text times 0.01, plus flat boosts of 0.3 / 0.2 / 0.1 for the
class, function and comment patterns, each applied at most once per token
per file. -/
theorem C2_fallback_score (query rawCode : Str)
    (hplain : ∀ kw ∈ queryTokens query, ∀ c ∈ kw, plainChar c = true) :
    fallbackItemScoreRx (queryTokens query) rawCode =
      .ok (((queryTokens query).map (fun kw =>
        (countOccur (lowerStr rawCode) kw : ℚ) * (1 / 100)
        + (if classPattern (lowerStr rawCode) kw then 3 / 10 else 0)
        + (if functionPattern (lowerStr rawCode) kw then 2 / 10 else 0)
        + (if commentPattern (lowerStr rawCode) kw then 1 / 10 else 0))).sum) := by
  rw [fallbackItemScoreRx_query query rawCode hplain, fallbackItemScore_sum]

theorem C2_witness :
    fallbackItemScoreRx (queryTokens ("add".toList)) ("function myadd(x)".toList)
      = .ok (21 / 100) :=
  (C2_fallback_score ("add".toList) ("function myadd(x)".toList) (by decide)).trans
    (by decide)

/-! ### C3: keyword extraction against its four-step reference -/

/-- The lowercased class names extracted at CodeSearchEngine.ts:69-71: each
match with the first occurrence of the literal `class ` removed, then
lowercased (no length or stoplist filter). -/
def classNames (code : Str) : List Str :=
  (classScan code).map (fun mt => lowerStr (removeFirst ("class ".toList) mt))

/-- The length/stoplist filter applied to function names
(CodeSearchEngine.ts:77). -/
def keepFunctionName (n : Str) : Bool := decide (2 < n.length) && !isCommonKeyword n

/-- The lowercased, filtered function names extracted at
CodeSearchEngine.ts:74-80. -/
def functionNames (code : Str) : List Str :=
  ((funcScan code).map (fun mt => lowerStr (funcStrip mt))).filter keepFunctionName

/-- The four-step reference weight of C3 with the amended step 1 (word
characters, underscore included, survive): occurrences among the filtered
tokens, plus 10 per class declaration with that name, plus 5 per surviving
function-like pattern with that name. -/
def referenceWeight (code term : Str) : Nat :=
  (extractionTokens code).count term
    + 10 * (classNames code).count term
    + 5 * (functionNames code).count term

/-- Step 1 exactly as the claim words it: every character that is not a
letter, digit, or whitespace — so the underscore included — becomes a
space. -/
def specReplaceNonAlnum (s : Str) : Str :=
  s.map (fun c => if c.isAlpha || c.isDigit || isWsChar c then c else ' ')

/-- The claim wording of steps 1-2 of the reference extraction. -/
def specNormalizeText (code : Str) : Str :=
  trimStr (collapseWs (specReplaceNonAlnum (lowerStr code)))

/-- The surviving tokens of the claim wording of the reference. -/
def specTokens (code : Str) : List Str :=
  (splitChar ' ' (specNormalizeText code)).filter
    (fun word => !(decide (word.length ≤ 2) || isCommonKeyword word))

/-- The reference weight exactly as C3 words it, differing from
`referenceWeight` only in step 1 (underscores are replaced by spaces). -/
def specReferenceWeight (code term : Str) : Nat :=
  (specTokens code).count term
    + 10 * (classNames code).count term
    + 5 * (functionNames code).count term

theorem getW_foldl_map_bump (f : Str → Str) (d : Nat) (ms : List Str)
    (m0 : List (Str × Nat)) (k : Str) :
    getW (ms.foldl (fun m mt => bump m (f mt) d) m0) k
      = getW m0 k + d * ((ms.map f).count k) := by
  induction ms generalizing m0 with
  | nil => simp
  | cons mt ms ih =>
    rw [List.foldl_cons, ih, getW_bump, List.map_cons, List.count_cons]
    by_cases hk : k = f mt
    · subst hk
      simp only [eq_self_iff_true, if_true, beq_self_eq_true]
      ring
    · have hb : (f mt == k) = false := beq_eq_false_iff_ne.mpr (Ne.symm hk)
      simp [hk, hb]

theorem getW_foldl_map_keep_bump (f : Str → Str) (keep : Str → Bool) (d : Nat)
    (ms : List Str) (m0 : List (Str × Nat)) (k : Str) :
    getW (ms.foldl (fun m mt => if keep (f mt) then bump m (f mt) d else m) m0) k
      = getW m0 k + d * (((ms.map f).filter keep).count k) := by
  induction ms generalizing m0 with
  | nil => simp
  | cons mt ms ih =>
    rw [List.foldl_cons, List.map_cons, List.filter_cons]
    cases hc : keep (f mt) with
    | true =>
      rw [if_pos rfl, if_pos rfl, ih, getW_bump, List.count_cons]
      by_cases hk : k = f mt
      · subst hk
        simp only [eq_self_iff_true, if_true, beq_self_eq_true]
        ring
      · have hb : (f mt == k) = false := beq_eq_false_iff_ne.mpr (Ne.symm hk)
        simp [hk, hb]
    | false =>
      rw [if_neg (by simp), if_neg (by simp), ih]

theorem getW_foldl_skip_bump (bad : Str → Bool) (d : Nat) (ws : List Str)
    (m0 : List (Str × Nat)) (k : Str) :
    getW (ws.foldl (fun m w => if bad w then m else bump m w d) m0) k
      = getW m0 k + d * ((ws.filter (fun w => !bad w)).count k) := by
  induction ws generalizing m0 with
  | nil => simp
  | cons w ws ih =>
    rw [List.foldl_cons, List.filter_cons]
    cases hc : bad w with
    | true =>
      rw [if_pos rfl, if_neg (by simp), ih]
    | false =>
      rw [if_neg (by simp), if_pos (by simp), ih, getW_bump, List.count_cons]
      by_cases hk : k = w
      · subst hk
        simp only [eq_self_iff_true, if_true, beq_self_eq_true]
        ring
      · have hb : (w == k) = false := beq_eq_false_iff_ne.mpr (Ne.symm hk)
        simp [hk, hb]

/-- C3 (counterexample): on the input `foo_bar` the extractor keeps the
underscore (JS `\w` matches it), producing the single term `foo_bar` with
weight 1, while the reference of the claim as stated replaces the underscore
with a space and gives `foo_bar` weight 0. -/
theorem C3_counterexample :
    getW (extractKeywords ("foo_bar".toList)) ("foo_bar".toList) = 1
    ∧ specReferenceWeight ("foo_bar".toList) ("foo_bar".toList) = 0 := by
  constructor
  · decide
  · decide

/-- C3 (amended): for every text and term, the weight `extract` assigns is
the four-step reference with step 1 keeping underscores as word characters:
occurrences among the filtered tokens, plus 10 per `class` declaration whose
(lowercased) name equals the term, plus 5 per function-like pattern whose
(lowercased) name passes the length/stoplist filter and equals the term. -/
theorem C3_extract_reference (code term : Str) :
    getW (extractKeywords code) term = referenceWeight code term := by
  unfold extractKeywords referenceWeight
  dsimp only
  rw [getW_foldl_map_keep_bump (fun mt => lowerStr (funcStrip mt))
      (fun n => decide (2 < n.length) && !isCommonKeyword n) 5]
  rw [getW_foldl_map_bump (fun mt => lowerStr (removeFirst ("class ".toList) mt)) 10]
  rw [getW_foldl_skip_bump (fun w => decide (w.length ≤ 2) || isCommonKeyword w) 1]
  unfold extractionTokens classNames functionNames keepFunctionName
  simp [getW]

/-! ### C4: query tokenization and empty-token queries -/

/-- C4 (counterexample): the query tokenizer does no symbol replacement and
no stoplist filtering, so it is not the tokenization of extraction steps 1-2:
on `foo.bar` the query tokenizer yields the single token `foo.bar`, while
steps 1-2 of extraction yield `foo` and `bar`. -/
theorem C4_counterexample :
    queryTokens ("foo.bar".toList) = [("foo.bar".toList)]
    ∧ extractionTokens ("foo.bar".toList) = ["foo".toList, "bar".toList] := by
  constructor
  · decide
  · decide

/-- C4 (amended): `search` tokenizes the query by lowercasing, splitting on
whitespace and dropping tokens of length at most 2 (without the symbol
replacement and stoplist filter of extraction steps 1-2), and a query with
no remaining tokens returns an empty result list against a non-empty index,
not an error. -/
theorem C4_empty_query (metadata : List CodeMetadata) (query directory : Str)
    (h1 : metadata ≠ []) (h2 : queryTokens query = []) :
    searchPure metadata query directory = .ok [] := by
  unfold searchPure scoredEntries keywordSearch
  rw [if_neg (by simpa [List.isEmpty_iff] using h1)]
  simp [h2, sortDesc, assignRanks]

/-- A sample indexed record used to instantiate hypotheses at concrete
inputs. -/
def addRecord : CodeMetadata :=
  { file := "A.ts".toList, code := "function add".toList,
    keywords := [("add".toList, 6)], checksum := [] }

theorem C4_witness :
    searchPure [addRecord] ("ab x".toList) ("d".toList) = .ok [] :=
  C4_empty_query [addRecord] ("ab x".toList) ("d".toList) (by decide) (by decide)

/-! ### C5: ordering, ranks, positivity, tie stability -/

theorem mem_insertDesc (x y : ScoredEntry) (l : List ScoredEntry) :
    y ∈ insertDesc x l ↔ y = x ∨ y ∈ l := by
  induction l with
  | nil => simp [insertDesc]
  | cons z zs ih =>
    by_cases hc : z.similarityScore ≤ x.similarityScore
    · simp [insertDesc, hc]
    · simp [insertDesc, hc, ih]
      tauto

theorem insertDesc_sorted (x : ScoredEntry) (l : List ScoredEntry)
    (h : List.Pairwise (fun a b => b.similarityScore ≤ a.similarityScore) l) :
    List.Pairwise (fun a b => b.similarityScore ≤ a.similarityScore) (insertDesc x l) := by
  induction l with
  | nil => simp [insertDesc]
  | cons z zs ih =>
    rw [List.pairwise_cons] at h
    by_cases hc : z.similarityScore ≤ x.similarityScore
    · rw [insertDesc, if_pos hc, List.pairwise_cons]
      refine ⟨?_, List.pairwise_cons.mpr h⟩
      intro w hw
      rcases List.mem_cons.mp hw with hw | hw
      · exact hw ▸ hc
      · exact le_trans (h.1 w hw) hc
    · rw [insertDesc, if_neg hc, List.pairwise_cons]
      refine ⟨?_, ih h.2⟩
      intro w hw
      rcases (mem_insertDesc x w zs).mp hw with hw | hw
      · exact hw ▸ le_of_lt (lt_of_not_le hc)
      · exact h.1 w hw

theorem sortDesc_sorted (l : List ScoredEntry) :
    List.Pairwise (fun a b => b.similarityScore ≤ a.similarityScore) (sortDesc l) := by
  induction l with
  | nil => simp [sortDesc]
  | cons x xs ih => exact insertDesc_sorted x (sortDesc xs) ih

theorem mem_sortDesc (y : ScoredEntry) (l : List ScoredEntry) :
    y ∈ sortDesc l ↔ y ∈ l := by
  induction l with
  | nil => simp [sortDesc]
  | cons x xs ih =>
    rw [sortDesc, mem_insertDesc, ih, List.mem_cons]

theorem insertDesc_filter_ne (x : ScoredEntry) (l : List ScoredEntry) (s : ℚ)
    (hx : (x.similarityScore == s) = false) :
    (insertDesc x l).filter (fun e => e.similarityScore == s)
      = l.filter (fun e => e.similarityScore == s) := by
  induction l with
  | nil => simp [insertDesc, hx]
  | cons z zs ih =>
    by_cases hc : z.similarityScore ≤ x.similarityScore
    · rw [insertDesc, if_pos hc, List.filter_cons, hx]
      simp
    · rw [insertDesc, if_neg hc, List.filter_cons, List.filter_cons, ih]

theorem insertDesc_filter_eq (x : ScoredEntry) (l : List ScoredEntry) (s : ℚ)
    (hx : (x.similarityScore == s) = true)
    (hl : List.Pairwise (fun a b => b.similarityScore ≤ a.similarityScore) l) :
    (insertDesc x l).filter (fun e => e.similarityScore == s)
      = x :: l.filter (fun e => e.similarityScore == s) := by
  induction l with
  | nil => simp [insertDesc, hx]
  | cons z zs ih =>
    rw [List.pairwise_cons] at hl
    by_cases hc : z.similarityScore ≤ x.similarityScore
    · rw [insertDesc, if_pos hc, List.filter_cons, hx]
      simp
    · have hzs : (z.similarityScore == s) = false := by
        have hxs : x.similarityScore = s := beq_iff_eq.mp hx
        exact beq_eq_false_iff_ne.mpr (fun he => hc (le_of_eq (he.trans hxs.symm)))
      rw [insertDesc, if_neg hc, List.filter_cons, List.filter_cons, hzs, ih hl.2]
      simp

theorem sortDesc_filter (l : List ScoredEntry) (s : ℚ) :
    (sortDesc l).filter (fun e => e.similarityScore == s)
      = l.filter (fun e => e.similarityScore == s) := by
  induction l with
  | nil => simp [sortDesc]
  | cons x xs ih =>
    rw [sortDesc, List.filter_cons]
    cases hx : (x.similarityScore == s) with
    | true =>
      rw [insertDesc_filter_eq x (sortDesc xs) s hx (sortDesc_sorted xs), ih]
      simp
    | false =>
      rw [insertDesc_filter_ne x (sortDesc xs) s hx, ih]
      simp

theorem assignRanks_get_rank (l : List ScoredEntry) :
    ∀ (i j : Nat) (hj : j < (assignRanks i l).length),
      ((assignRanks i l).get ⟨j, hj⟩).rank = i + j + 1 := by
  induction l with
  | nil => intro i j hj; simp [assignRanks] at hj
  | cons e es ih =>
    intro i j hj
    cases j with
    | zero => simp [assignRanks]
    | succ j =>
      have hj2 : j < (assignRanks (i + 1) es).length := by
        simpa [assignRanks] using hj
      have := ih (i + 1) j hj2
      simpa [assignRanks, Nat.add_assoc, Nat.add_comm 1 j] using this

theorem assignRanks_mem (l : List ScoredEntry) :
    ∀ (i : Nat) (r : SearchResult), r ∈ assignRanks i l →
      ∃ e ∈ l, r.file = e.file ∧ r.code = e.code
        ∧ r.similarityScore = e.similarityScore := by
  induction l with
  | nil => intro i r hr; simp [assignRanks] at hr
  | cons e es ih =>
    intro i r hr
    rcases List.mem_cons.mp hr with hr | hr
    · exact ⟨e, List.mem_cons_self e es, by simp [hr]⟩
    · obtain ⟨e2, he2, hprops⟩ := ih (i + 1) r hr
      exact ⟨e2, List.mem_cons_of_mem e he2, hprops⟩

theorem assignRanks_sorted (l : List ScoredEntry)
    (h : List.Pairwise (fun a b => b.similarityScore ≤ a.similarityScore) l) :
    ∀ i : Nat, List.Pairwise (fun a b => b.similarityScore ≤ a.similarityScore)
      (assignRanks i l) := by
  induction l with
  | nil => intro i; simp [assignRanks]
  | cons e es ih =>
    rw [List.pairwise_cons] at h
    intro i
    rw [assignRanks, List.pairwise_cons]
    refine ⟨?_, ih h.2 (i + 1)⟩
    intro r hr
    obtain ⟨e2, he2, _, _, hsc⟩ := assignRanks_mem es (i + 1) r hr
    exact hsc ▸ h.1 e2 he2

theorem assignRanks_filter_map (l : List ScoredEntry) (s : ℚ) :
    ∀ i : Nat,
      ((assignRanks i l).filter (fun r => r.similarityScore == s)).map
        (fun r => (r.file, r.similarityScore))
      = (l.filter (fun e => e.similarityScore == s)).map
        (fun e => (e.file, e.similarityScore)) := by
  induction l with
  | nil => intro i; simp [assignRanks]
  | cons e es ih =>
    intro i
    rw [assignRanks, List.filter_cons, List.filter_cons]
    cases hx : (e.similarityScore == s) with
    | true => simp [hx, ih (i + 1)]
    | false => simp [hx, ih (i + 1)]

theorem mem_setA {β : Type} (m : List (Str × β)) (k : Str) (v : β) (q : Str × β)
    (h : q ∈ setA m k v) : q ∈ m ∨ q = (k, v) := by
  induction m with
  | nil => simpa [setA] using h
  | cons p ps ih =>
    by_cases hp : p.1 = k
    · rw [setA, if_pos hp] at h
      rcases List.mem_cons.mp h with h | h
      · exact Or.inr h
      · exact Or.inl (List.mem_cons_of_mem p h)
    · rw [setA, if_neg hp] at h
      rcases List.mem_cons.mp h with h | h
      · exact Or.inl (h ▸ List.mem_cons_self p ps)
      · rcases ih h with h | h
        · exact Or.inl (List.mem_cons_of_mem p h)
        · exact Or.inr h

theorem accumulateScores_mem (g : CodeMetadata → ℚ) (metadata : List CodeMetadata)
    (q : Str × ℚ) (h : q ∈ accumulateScores g metadata) :
    0 < q.2 ∧ q.1 ∈ metadata.map (fun m => m.file) := by
  unfold accumulateScores at h
  suffices hgen : ∀ (md : List CodeMetadata) (init : List (Str × ℚ))
      (F : List Str), (∀ m ∈ md, m.file ∈ F) →
      (∀ p ∈ init, 0 < p.2 ∧ p.1 ∈ F) →
      ∀ p ∈ md.foldl (fun scores item =>
        if 0 < g item then setA scores item.file (g item) else scores) init,
        0 < p.2 ∧ p.1 ∈ F by
    exact hgen metadata [] (metadata.map (fun m => m.file))
      (fun m hm => List.mem_map_of_mem _ hm) (by simp) q h
  intro md
  induction md with
  | nil => intro init F _ hinit p hp; exact hinit p hp
  | cons m md ih =>
    intro init F hF hinit p hp
    rw [List.foldl_cons] at hp
    refine ih _ F (fun m2 hm2 => hF m2 (List.mem_cons_of_mem m hm2)) ?_ p hp
    intro p2 hp2
    by_cases hs : 0 < g m
    · rw [if_pos hs] at hp2
      rcases mem_setA _ _ _ _ hp2 with hp2 | hp2
      · exact hinit p2 hp2
      · exact hp2 ▸ ⟨hs, hF m (List.mem_cons_self m md)⟩
    · rw [if_neg hs] at hp2
      exact hinit p2 hp2

theorem keywordSearch_mem (query : Str) (metadata : List CodeMetadata)
    (q : Str × ℚ) (h : q ∈ keywordSearch query metadata) :
    0 < q.2 ∧ q.1 ∈ metadata.map (fun m => m.file) := by
  unfold keywordSearch at h
  dsimp only at h
  by_cases hq : (queryTokens query).isEmpty
  · rw [if_pos hq] at h
    simp at h
  · rw [if_neg hq] at h
    by_cases hk : hasKeywordIndices metadata
    · rw [if_pos hk] at h
      exact accumulateScores_mem _ _ _ h
    · rw [if_neg hk] at h
      exact accumulateScores_mem _ _ _ h

theorem scoredEntries_mem (metadata : List CodeMetadata) (query : Str)
    (e : ScoredEntry) (h : e ∈ scoredEntries metadata query) :
    0 < e.similarityScore := by
  unfold scoredEntries at h
  rcases List.mem_filterMap.mp h with ⟨fs, hfs, hmap⟩
  rcases Option.map_eq_some'.mp hmap with ⟨item, _, heq⟩
  have := (keywordSearch_mem query metadata fs hfs).1
  rw [← heq]
  exact this

/-- C5: the search output is deterministic (it is exactly the ranked stable
sort of the scored entries), ordered by non-increasing `similarityScore`
(the tie clause of the claim makes the intended order non-strict), carries
the 1-based position as `rank`, contains only strictly positive scores (zero
scoring files are excluded), and ties keep the enumeration order of the
underlying scores map: for every score value, filtering the output and
filtering the pre-sort entry list give the same file sequence. -/
theorem C5_search_ranking (metadata : List CodeMetadata) (query directory : Str)
    (h : metadata ≠ []) :
    searchPure metadata query directory
      = .ok (assignRanks 0 (sortDesc (scoredEntries metadata query)))
    ∧ List.Pairwise (fun a b => b.similarityScore ≤ a.similarityScore)
        (assignRanks 0 (sortDesc (scoredEntries metadata query)))
    ∧ (∀ (j : Nat) (hj : j < (assignRanks 0 (sortDesc (scoredEntries metadata query))).length),
        ((assignRanks 0 (sortDesc (scoredEntries metadata query))).get ⟨j, hj⟩).rank = j + 1)
    ∧ (∀ r ∈ assignRanks 0 (sortDesc (scoredEntries metadata query)),
        0 < r.similarityScore)
    ∧ (∀ s : ℚ,
        ((assignRanks 0 (sortDesc (scoredEntries metadata query))).filter
          (fun r => r.similarityScore == s)).map (fun r => (r.file, r.similarityScore))
        = ((scoredEntries metadata query).filter
          (fun e => e.similarityScore == s)).map (fun e => (e.file, e.similarityScore))) := by
  refine ⟨?_, ?_, ?_, ?_, ?_⟩
  · unfold searchPure
    rw [if_neg (by simpa [List.isEmpty_iff] using h)]
  · exact assignRanks_sorted _ (sortDesc_sorted _) 0
  · intro j hj
    simpa using assignRanks_get_rank (sortDesc (scoredEntries metadata query)) 0 j hj
  · intro r hr
    obtain ⟨e, he, _, _, hsc⟩ := assignRanks_mem _ 0 r hr
    rw [hsc]
    exact scoredEntries_mem metadata query e ((mem_sortDesc e _).mp he)
  · intro s
    rw [assignRanks_filter_map, sortDesc_filter]

theorem C5_witness :
    searchPure [addRecord] ("add".toList) ("d".toList)
      = .ok (assignRanks 0 (sortDesc (scoredEntries [addRecord] ("add".toList)))) :=
  (C5_search_ranking [addRecord] ("add".toList) ("d".toList) (by decide)).1

/-! ### C6, C7, C10: index construction, lazy builds, and key alignment -/

theorem discoveredFiles_nil_iff (fsm : FsModel) :
    discoveredFiles fsm = [] ↔
      scanFiles fsm.direct = [] ∧ ((fsm.subdirs.filterMap id).map scanFiles).flatten = [] := by
  unfold discoveredFiles
  by_cases hd : (scanFiles fsm.direct).isEmpty
  · rw [if_pos hd]
    simp [List.isEmpty_iff.mp hd]
  · rw [if_neg hd]
    have h1 : scanFiles fsm.direct ≠ [] := fun he => hd (List.isEmpty_iff.mpr he)
    simp [h1]

/-- C6: `createIndex` fails with `NoFilesFound` exactly when the direct scan
and all successful subdirectory scans are empty; when at least one file is
discovered the build succeeds unconditionally, storing a record for exactly
the files whose read succeeded (failed reads are skipped, never fatal). -/
theorem C6_createIndex_errors (st : EngineState) (fsm : FsModel) (cwd directory : Str)
    (extensions : Option (List Str)) :
    (createIndex st fsm cwd directory extensions = .error (.noFilesFound directory)
      ↔ scanFiles fsm.direct = []
        ∧ ((fsm.subdirs.filterMap id).map scanFiles).flatten = [])
    ∧ (discoveredFiles fsm ≠ [] →
        createIndex st fsm cwd directory extensions = .ok
          { directoryIndices := setA st.directoryIndices
              (getNormalizedDirectory cwd directory)
              ((discoveredFiles fsm).filterMap (readRecord fsm.readFile)),
            indexedExtensions := setA st.indexedExtensions
              (getNormalizedDirectory cwd directory)
              (extensions.getD defaultExtensions) }) := by
  unfold createIndex builtMetadata
  by_cases h : (discoveredFiles fsm).isEmpty
  · rw [if_pos h]
    constructor
    · constructor
      · intro _
        exact (discoveredFiles_nil_iff fsm).mp (List.isEmpty_iff.mp h)
      · intro _
        rfl
    · intro hne
      exact absurd (List.isEmpty_iff.mp h) hne
  · rw [if_neg h]
    have h1 : discoveredFiles fsm ≠ [] := fun he => h (List.isEmpty_iff.mpr he)
    constructor
    · constructor
      · intro hfalse
        exact absurd hfalse (by simp)
      · intro hconj
        exact absurd ((discoveredFiles_nil_iff fsm).mpr hconj) h1
    · intro _
      rfl

/-- The file-system responses of a directory holding a single file `a.ts`
whose read fails. -/
def oneFileFsm : FsModel :=
  { direct := { globMatches := ["a.ts".toList], ignored := fun _ => false },
    subdirs := [], readFile := fun _ => none }

theorem C6_witness :
    createIndex emptyEngineState oneFileFsm ("/".toList) ("proj".toList) none = .ok
      { directoryIndices := setA emptyEngineState.directoryIndices
          (getNormalizedDirectory ("/".toList) ("proj".toList))
          ((discoveredFiles oneFileFsm).filterMap (readRecord oneFileFsm.readFile)),
        indexedExtensions := setA emptyEngineState.indexedExtensions
          (getNormalizedDirectory ("/".toList) ("proj".toList))
          (Option.getD none defaultExtensions) } :=
  (C6_createIndex_errors emptyEngineState oneFileFsm ("/".toList) ("proj".toList) none).2
    (by decide)

theorem createIndex_error_shape (st : EngineState) (fsm : FsModel) (cwd directory : Str)
    (extensions : Option (List Str)) (e : EngineError)
    (h : createIndex st fsm cwd directory extensions = .error e) :
    e = .noFilesFound directory := by
  unfold createIndex at h
  split at h
  · exact (Except.error.injEq _ _ ▸ h).symm
  · exact absurd h (by simp)

theorem searchEngine_key_present (st : EngineState) (fsm : FsModel)
    (cwd query directory : Str) (md : List CodeMetadata)
    (hmd : getA? st.directoryIndices (getNormalizedDirectory cwd directory) = some md) :
    searchEngine st fsm cwd query directory
      = (searchPure md query directory).map (fun rs => (rs, st)) := by
  unfold searchEngine implicitBuild
  rw [if_neg (by simp [hmd])]
  dsimp only
  rw [hmd]
  cases hsp : searchPure md query directory with
  | error e => simp [Except.map, hsp, Option.getD]
  | ok rs => simp [Except.map, hsp, Option.getD]

theorem searchEngine_key_absent (st : EngineState) (fsm : FsModel)
    (cwd query directory : Str)
    (hnone : getA? st.directoryIndices (getNormalizedDirectory cwd directory) = none) :
    searchEngine st fsm cwd query directory
      = match createIndex st fsm cwd directory
          (some ((getA? st.indexedExtensions
            (getNormalizedDirectory cwd directory)).getD defaultExtensions)) with
        | .error e => .error e
        | .ok st2 =>
          (searchPure ((getA? st2.directoryIndices
            (getNormalizedDirectory cwd directory)).getD []) query directory).map
            (fun rs => (rs, st2)) := by
  unfold searchEngine implicitBuild
  rw [if_pos (by simp [hnone])]
  cases hci : createIndex st fsm cwd directory
      (some ((getA? st.indexedExtensions
        (getNormalizedDirectory cwd directory)).getD defaultExtensions)) with
  | error e => simp
  | ok st2 =>
    dsimp only
    cases hsp : searchPure ((getA? st2.directoryIndices
        (getNormalizedDirectory cwd directory)).getD []) query directory with
    | error e => simp [Except.map, hsp]
    | ok rs => simp [Except.map, hsp]

theorem searchEngine_noIndexed_iff (st : EngineState) (fsm : FsModel)
    (cwd query directory : Str) :
    searchEngine st fsm cwd query directory = .error (.noIndexedFiles directory)
      ↔ ∃ st2, implicitBuild st fsm cwd directory = .ok st2
          ∧ (getA? st2.directoryIndices (getNormalizedDirectory cwd directory)).getD []
            = [] := by
  unfold searchEngine
  cases hib : implicitBuild st fsm cwd directory with
  | error e =>
    have he : e = .noFilesFound directory := by
      unfold implicitBuild at hib
      split at hib
      · exact createIndex_error_shape _ _ _ _ _ _ hib
      · exact absurd hib (by simp)
    subst he
    simp
  | ok st2 =>
    dsimp only
    unfold searchPure
    by_cases hmd : ((getA? st2.directoryIndices
        (getNormalizedDirectory cwd directory)).getD []).isEmpty
    · rw [if_pos hmd]
      simp [List.isEmpty_iff.mp hmd]
    · rw [if_neg hmd]
      have h1 : (getA? st2.directoryIndices
          (getNormalizedDirectory cwd directory)).getD [] ≠ [] :=
        fun he => hmd (List.isEmpty_iff.mpr he)
      simp [h1]

/-- C7 (amended): when the key is present, `search` performs no build and
leaves the state untouched; when the key is absent it builds with the
remembered extension set or the defaults and propagates a build failure
verbatim; and it raises `NoIndexedFiles` exactly when the implicit build
step does not itself fail and the index entry for the key is empty
afterwards. -/
theorem C7_lazy_build (st : EngineState) (fsm : FsModel) (cwd query directory : Str) :
    (∀ md, getA? st.directoryIndices (getNormalizedDirectory cwd directory) = some md →
      searchEngine st fsm cwd query directory
        = (searchPure md query directory).map (fun rs => (rs, st)))
    ∧ (getA? st.directoryIndices (getNormalizedDirectory cwd directory) = none →
        searchEngine st fsm cwd query directory
          = match createIndex st fsm cwd directory
              (some ((getA? st.indexedExtensions
                (getNormalizedDirectory cwd directory)).getD defaultExtensions)) with
            | .error e => .error e
            | .ok st2 =>
              (searchPure ((getA? st2.directoryIndices
                (getNormalizedDirectory cwd directory)).getD []) query directory).map
                (fun rs => (rs, st2)))
    ∧ (searchEngine st fsm cwd query directory = .error (.noIndexedFiles directory)
        ↔ ∃ st2, implicitBuild st fsm cwd directory = .ok st2
            ∧ (getA? st2.directoryIndices (getNormalizedDirectory cwd directory)).getD []
              = []) :=
  ⟨fun md hmd => searchEngine_key_present st fsm cwd query directory md hmd,
    fun hnone => searchEngine_key_absent st fsm cwd query directory hnone,
    searchEngine_noIndexed_iff st fsm cwd query directory⟩

/-- The file-system responses of a directory with no files at all. -/
def emptyFsm : FsModel :=
  { direct := { globMatches := [], ignored := fun _ => false },
    subdirs := [], readFile := fun _ => none }

/-- C7 (counterexample): against an empty directory with no prior index, the
implicit build fails and `search` raises `NoFilesFound`, not
`NoIndexedFiles`, although the index for the directory is (still) empty
after the attempt. -/
theorem C7_counterexample :
    searchEngine emptyEngineState emptyFsm ("/".toList) ("query".toList) ("proj".toList)
      = .error (.noFilesFound ("proj".toList))
    ∧ searchEngine emptyEngineState emptyFsm ("/".toList) ("query".toList) ("proj".toList)
      ≠ .error (.noIndexedFiles ("proj".toList))
    ∧ (getA? emptyEngineState.directoryIndices
        (getNormalizedDirectory ("/".toList) ("proj".toList))).getD [] = [] := by
  refine ⟨by decide, by decide, by decide⟩

/-- An engine state that already holds an index for `/proj`. -/
def indexedState : EngineState :=
  { directoryIndices :=
      [(getNormalizedDirectory ("/".toList) ("proj".toList), [addRecord])],
    indexedExtensions :=
      [(getNormalizedDirectory ("/".toList) ("proj".toList), defaultExtensions)] }

theorem C7_witness :
    (searchEngine indexedState emptyFsm ("/".toList) ("add".toList) ("proj".toList)
      = (searchPure [addRecord] ("add".toList) ("proj".toList)).map
          (fun rs => (rs, indexedState)))
    ∧ (searchEngine emptyEngineState emptyFsm ("/".toList) ("add".toList) ("proj".toList)
      = match createIndex emptyEngineState emptyFsm ("/".toList) ("proj".toList)
          (some ((getA? emptyEngineState.indexedExtensions
            (getNormalizedDirectory ("/".toList) ("proj".toList))).getD defaultExtensions)) with
        | .error e => .error e
        | .ok st2 =>
          (searchPure ((getA? st2.directoryIndices
            (getNormalizedDirectory ("/".toList) ("proj".toList))).getD [])
            ("add".toList) ("proj".toList)).map (fun rs => (rs, st2))) :=
  ⟨(C7_lazy_build indexedState emptyFsm ("/".toList) ("add".toList) ("proj".toList)).1
      [addRecord] (by decide),
    (C7_lazy_build emptyEngineState emptyFsm ("/".toList) ("add".toList)
      ("proj".toList)).2.1 (by decide)⟩

/-- The invariant of C10: both engine maps hold exactly the same normalized
directory keys. -/
def KeysAligned (st : EngineState) : Prop :=
  ∀ k, (getA? st.directoryIndices k).isSome ↔ (getA? st.indexedExtensions k).isSome

/-- C10: key alignment holds initially, is preserved by every successful
`createIndex` and `search`, and makes every implicit build use the default
extension list: when the index key is absent the remembered-extension lookup
misses too, so `search` passes exactly `defaultExtensions` to the build. -/
theorem C10_keys_aligned (st : EngineState) (fsm : FsModel) (cwd query directory : Str)
    (extensions : Option (List Str)) (h : KeysAligned st) :
    KeysAligned emptyEngineState
    ∧ (∀ st2, createIndex st fsm cwd directory extensions = .ok st2 → KeysAligned st2)
    ∧ (∀ rs st2, searchEngine st fsm cwd query directory = .ok (rs, st2) → KeysAligned st2)
    ∧ (getA? st.directoryIndices (getNormalizedDirectory cwd directory) = none →
        (getA? st.indexedExtensions
          (getNormalizedDirectory cwd directory)).getD defaultExtensions
          = defaultExtensions
        ∧ searchEngine st fsm cwd query directory
          = match createIndex st fsm cwd directory (some defaultExtensions) with
            | .error e => .error e
            | .ok st2 =>
              (searchPure ((getA? st2.directoryIndices
                (getNormalizedDirectory cwd directory)).getD []) query directory).map
                (fun rs => (rs, st2))) := by
  have hbuild : ∀ (exts : Option (List Str)) (st2 : EngineState),
      createIndex st fsm cwd directory exts = .ok st2 → KeysAligned st2 := by
    intro exts st2 hok
    unfold createIndex at hok
    split at hok
    · exact absurd hok (by simp)
    · have hst2 := Except.ok.inj hok
      subst hst2
      intro k
      simp only [getA?_setA]
      by_cases hk : k = getNormalizedDirectory cwd directory
      · simp [hk]
      · simp only [hk, if_false]
        exact h k
  have hdefaults : getA? st.directoryIndices (getNormalizedDirectory cwd directory) = none →
      (getA? st.indexedExtensions
        (getNormalizedDirectory cwd directory)).getD defaultExtensions
        = defaultExtensions := by
    intro hnone
    have halign := h (getNormalizedDirectory cwd directory)
    rw [hnone] at halign
    cases hx : getA? st.indexedExtensions (getNormalizedDirectory cwd directory) with
    | none => rfl
    | some v =>
      rw [hx] at halign
      simp at halign
  refine ⟨?_, fun st2 => hbuild extensions st2, ?_, ?_⟩
  · intro k
    simp [emptyEngineState, getA?]
  · intro rs st2 hok
    unfold searchEngine at hok
    cases hib : implicitBuild st fsm cwd directory with
    | error e =>
      rw [hib] at hok
      exact absurd hok (by simp)
    | ok st3 =>
      rw [hib] at hok
      dsimp only at hok
      have hst : st3 = st2 := by
        cases hsp : searchPure ((getA? st3.directoryIndices
            (getNormalizedDirectory cwd directory)).getD []) query directory with
        | error e =>
          rw [hsp] at hok
          exact absurd hok (by simp)
        | ok rs2 =>
          rw [hsp] at hok
          simp only [Except.ok.injEq, Prod.mk.injEq] at hok
          exact hok.2
      subst hst
      unfold implicitBuild at hib
      split at hib
      · exact hbuild _ _ hib
      · have h3 := Except.ok.inj hib
        exact h3 ▸ h
  · intro hnone
    refine ⟨hdefaults hnone, ?_⟩
    have heq := searchEngine_key_absent st fsm cwd query directory hnone
    rw [hdefaults hnone] at heq
    exact heq

/-- A concrete witness consequence of the invariant: on the empty state the
maps are aligned, and a search against an unindexed directory passes exactly
the default extension list to the implicit build. -/
theorem C10_witness :
    (getA? emptyEngineState.indexedExtensions
      (getNormalizedDirectory ("/".toList) ("proj".toList))).getD defaultExtensions
      = defaultExtensions :=
  ((C10_keys_aligned emptyEngineState emptyFsm ("/".toList) ("add".toList)
      ("proj".toList) none (fun _ => Iff.rfl)).2.2.2 (by decide)).1

/-! ### C9: test files are never indexed or returned -/

/-- The invariant: every record in every stored index is a non-test file. -/
def GoodState (st : EngineState) : Prop :=
  ∀ e ∈ st.directoryIndices, ∀ m ∈ e.2, isTestFile m.file = false

/-- The test-file condition exactly as C9 words it: `.spec.` or `.test.` in
the basename, or a `__tests__` path segment. -/
def ClaimTestFile (f : Str) : Prop :=
  (".spec.".toList) <:+: basename f ∨ (".test.".toList) <:+: basename f
    ∨ ("__tests__".toList) ∈ splitChar '/' f

theorem splitChar_ne_nil (sep : Char) (s : Str) : splitChar sep s ≠ [] := by
  cases s with
  | nil => simp [splitChar]
  | cons c cs =>
    unfold splitChar
    by_cases hc : c = sep
    · simp [hc]
    · rw [if_neg hc]
      cases splitChar sep cs <;> simp

theorem splitChar_head_prefix (sep : Char) (s : Str) :
    ∀ t ts, splitChar sep s = t :: ts → t <+: s := by
  induction s with
  | nil =>
    intro t ts h
    simp [splitChar] at h
    simp [h.1]
  | cons c cs ih =>
    intro t ts h
    unfold splitChar at h
    by_cases hc : c = sep
    · rw [if_pos hc] at h
      have ht : t = [] := (List.cons.inj h).1.symm
      simp [ht]
    · rw [if_neg hc] at h
      cases hs : splitChar sep cs with
      | nil => exact absurd hs (splitChar_ne_nil sep cs)
      | cons t2 ts2 =>
        rw [hs] at h
        have ht : t = c :: t2 := (List.cons.inj h).1.symm
        subst ht
        exact (List.cons_prefix_cons).mpr ⟨rfl, ih t2 ts2 hs⟩

theorem mem_splitChar_infix (sep : Char) (s x : Str) (h : x ∈ splitChar sep s) :
    x <:+: s := by
  induction s with
  | nil =>
    simp [splitChar] at h
    simp [h]
  | cons c cs ih =>
    unfold splitChar at h
    by_cases hc : c = sep
    · rw [if_pos hc] at h
      rcases List.mem_cons.mp h with h | h
      · simp [h]
      · exact List.infix_cons_iff.mpr (Or.inr (ih h))
    · rw [if_neg hc] at h
      cases hs : splitChar sep cs with
      | nil => exact absurd hs (splitChar_ne_nil sep cs)
      | cons t2 ts2 =>
        rw [hs] at h
        rcases List.mem_cons.mp h with h | h
        · subst h
          exact ((List.cons_prefix_cons).mpr
            ⟨rfl, splitChar_head_prefix sep cs t2 ts2 hs⟩).isInfix
        · exact List.infix_cons_iff.mpr
            (Or.inr (ih (by rw [hs]; exact List.mem_cons_of_mem t2 h)))

theorem claimTest_isTestFile (f : Str) (h : ClaimTestFile f) : isTestFile f = true := by
  unfold isTestFile
  rw [Bool.or_eq_true, Bool.or_eq_true]
  rcases h with h | h | h
  · have h2 : lowerStr (".spec.".toList) <:+: lowerStr (basename f) := h.map Char.toLower
    have h3 : lowerStr (".spec.".toList) = (".spec.".toList) := by decide
    rw [h3] at h2
    exact Or.inl (Or.inl ((strIncludes_true_iff _ _).mpr h2))
  · have h2 : lowerStr (".test.".toList) <:+: lowerStr (basename f) := h.map Char.toLower
    have h3 : lowerStr (".test.".toList) = (".test.".toList) := by decide
    rw [h3] at h2
    exact Or.inl (Or.inr ((strIncludes_true_iff _ _).mpr h2))
  · have h2 : ("__tests__".toList) <:+: f := mem_splitChar_infix '/' f _ h
    exact Or.inr ((strIncludes_true_iff _ _).mpr h2)

theorem getSourceFiles_no_test (gm : List Str) (ig : Str → Bool) (f : Str)
    (h : f ∈ getSourceFiles gm ig) : isTestFile f = false := by
  unfold getSourceFiles at h
  have h2 := List.of_mem_filter h
  simpa using h2

theorem discoveredFiles_no_test (fsm : FsModel) (f : Str)
    (h : f ∈ discoveredFiles fsm) : isTestFile f = false := by
  unfold discoveredFiles at h
  split at h
  · rcases List.mem_flatten.mp h with ⟨l, hl, hfl⟩
    rcases List.mem_map.mp hl with ⟨scan, _, hscan⟩
    exact getSourceFiles_no_test _ _ f (hscan ▸ hfl)
  · exact getSourceFiles_no_test _ _ f h

theorem builtMetadata_no_test (fsm : FsModel) (m : CodeMetadata)
    (h : m ∈ builtMetadata fsm) : isTestFile m.file = false := by
  unfold builtMetadata readRecord at h
  rcases List.mem_filterMap.mp h with ⟨f, hf, hmap⟩
  rcases Option.map_eq_some'.mp hmap with ⟨content, _, heq⟩
  have hfile : m.file = f := by rw [← heq]
  exact hfile ▸ discoveredFiles_no_test fsm f hf

theorem getA?_mem {β : Type} (m : List (Str × β)) (k : Str) (v : β)
    (h : getA? m k = some v) : (k, v) ∈ m := by
  induction m with
  | nil => simp [getA?] at h
  | cons p ps ih =>
    unfold getA? at h
    by_cases hp : p.1 = k
    · rw [if_pos hp] at h
      have hv := Option.some.inj h
      have hpk : p = (k, v) := by
        cases p
        simp_all
      exact hpk ▸ List.mem_cons_self p ps
    · rw [if_neg hp] at h
      exact List.mem_cons_of_mem p (ih h)

theorem createIndex_good (st : EngineState) (fsm : FsModel) (cwd directory : Str)
    (extensions : Option (List Str)) (hgood : GoodState st) (st2 : EngineState)
    (hok : createIndex st fsm cwd directory extensions = .ok st2) : GoodState st2 := by
  unfold createIndex at hok
  split at hok
  · exact absurd hok (by simp)
  · have hst2 := Except.ok.inj hok
    subst hst2
    intro e he m hm
    rcases mem_setA _ _ _ _ he with he | he
    · exact hgood e he m hm
    · subst he
      exact builtMetadata_no_test fsm m hm

theorem searchResults_no_test (metadata : List CodeMetadata) (query directory : Str)
    (rs : List SearchResult) (hok : searchPure metadata query directory = .ok rs)
    (hmeta : ∀ m ∈ metadata, isTestFile m.file = false) :
    ∀ r ∈ rs, isTestFile r.file = false := by
  intro r hr
  unfold searchPure at hok
  split at hok
  · exact absurd hok (by simp)
  · have hrs := Except.ok.inj hok
    subst hrs
    obtain ⟨e, he, hfile, _, _⟩ := assignRanks_mem _ 0 r hr
    have he2 : e ∈ scoredEntries metadata query := (mem_sortDesc e _).mp he
    unfold scoredEntries at he2
    rcases List.mem_filterMap.mp he2 with ⟨fs, hfs, hmap⟩
    rcases Option.map_eq_some'.mp hmap with ⟨item, _, heq⟩
    have hef : e.file = fs.1 := by rw [← heq]
    have hmem := (keywordSearch_mem query metadata fs hfs).2
    rcases List.mem_map.mp hmem with ⟨m, hm, hmf⟩
    rw [hfile, hef, ← hmf]
    exact hmeta m hm

/-- C9: files discovered by `getSourceFiles` are never test files in the
sense of the claim; the invariant that no stored index holds a test file is
true initially and preserved by builds and searches; and under it no search
or `getRelevantFiles` result is a test file.  `foo.test.ts` is such a test
file. -/
theorem C9_no_test_files (st : EngineState) (fsm : FsModel)
    (cwd query directory : Str) (extensions : Option (List Str))
    (hgood : GoodState st) :
    (∀ (gm : List Str) (ig : Str → Bool) (f : Str),
      f ∈ getSourceFiles gm ig → ¬ ClaimTestFile f)
    ∧ GoodState emptyEngineState
    ∧ (∀ st2, createIndex st fsm cwd directory extensions = .ok st2 → GoodState st2)
    ∧ (∀ rs st2, searchEngine st fsm cwd query directory = .ok (rs, st2) →
        GoodState st2 ∧ ∀ r ∈ rs, ¬ ClaimTestFile r.file)
    ∧ (∀ fls st2, getRelevantFiles st fsm cwd query directory = .ok (fls, st2) →
        ∀ f ∈ fls, ¬ ClaimTestFile f)
    ∧ ClaimTestFile ("foo.test.ts".toList) := by
  have hsearch : ∀ rs st2, searchEngine st fsm cwd query directory = .ok (rs, st2) →
      GoodState st2 ∧ ∀ r ∈ rs, ¬ ClaimTestFile r.file := by
    intro rs st2 hok
    unfold searchEngine at hok
    cases hib : implicitBuild st fsm cwd directory with
    | error e =>
      rw [hib] at hok
      exact absurd hok (by simp)
    | ok st3 =>
      rw [hib] at hok
      dsimp only at hok
      have hg3 : GoodState st3 := by
        unfold implicitBuild at hib
        split at hib
        · exact createIndex_good st fsm cwd directory _ hgood st3 hib
        · exact (Except.ok.inj hib) ▸ hgood
      cases hsp : searchPure ((getA? st3.directoryIndices
          (getNormalizedDirectory cwd directory)).getD []) query directory with
      | error e =>
        rw [hsp] at hok
        exact absurd hok (by simp)
      | ok rs2 =>
        rw [hsp] at hok
        simp only [Except.ok.injEq, Prod.mk.injEq] at hok
        obtain ⟨hrs, hst⟩ := hok
        subst hrs
        subst hst
        refine ⟨hg3, ?_⟩
        intro r hr hclaim
        have hmeta : ∀ m ∈ (getA? st3.directoryIndices
            (getNormalizedDirectory cwd directory)).getD [],
            isTestFile m.file = false := by
          cases hx : getA? st3.directoryIndices (getNormalizedDirectory cwd directory) with
          | none => simp
          | some md =>
            intro m hm
            exact hg3 _ (getA?_mem _ _ _ hx) m (by simpa [hx] using hm)
        have := searchResults_no_test _ _ _ _ hsp hmeta r hr
        rw [claimTest_isTestFile _ hclaim] at this
        exact Bool.true_eq_false ▸ this ▸ rfl
  refine ⟨?_, ?_, fun st2 hok => createIndex_good st fsm cwd directory _ hgood st2 hok,
    hsearch, ?_, ?_⟩
  · intro gm ig f hf hclaim
    have h1 := getSourceFiles_no_test gm ig f hf
    rw [claimTest_isTestFile f hclaim] at h1
    exact absurd h1 (by simp)
  · intro e he
    simp [emptyEngineState] at he
  · intro fls st2 hok f hf
    unfold getRelevantFiles at hok
    cases hse : searchEngine st fsm cwd query directory with
    | error e =>
      rw [hse] at hok
      exact absurd hok (by simp)
    | ok p =>
      rw [hse] at hok
      dsimp only at hok
      simp only [Except.ok.injEq, Prod.mk.injEq] at hok
      obtain ⟨hfls, hst⟩ := hok
      have hp : searchEngine st fsm cwd query directory = .ok (p.1, p.2) := by
        rw [hse]
      obtain ⟨_, hres⟩ := hsearch p.1 p.2 hp
      rw [← hfls] at hf
      rcases List.mem_map.mp hf with ⟨r, hr, hrf⟩
      exact hrf ▸ hres r hr
  · unfold ClaimTestFile
    decide

theorem C9_witness : ClaimTestFile ("foo.test.ts".toList) :=
  (C9_no_test_files emptyEngineState emptyFsm ("/".toList) ("add".toList)
    ("proj".toList) none (fun e he => absurd he (List.not_mem_nil e))).2.2.2.2.2

/-! ### C8: directory-key normalization -/

/-- A component that `processComps` can have pushed: nonempty, not `.`, not
`..`, and free of separators. -/
def CleanComp (c : Str) : Prop :=
  c ≠ [] ∧ c ≠ ['.'] ∧ c ≠ ['.', '.'] ∧ '/' ∉ c

theorem splitChar_no_sep (sep : Char) (s : Str) :
    ∀ x ∈ splitChar sep s, sep ∉ x := by
  induction s with
  | nil =>
    intro x h
    simp [splitChar] at h
    simp [h]
  | cons c cs ih =>
    intro x h
    unfold splitChar at h
    by_cases hc : c = sep
    · rw [if_pos hc] at h
      rcases List.mem_cons.mp h with h | h
      · simp [h]
      · exact ih x h
    · rw [if_neg hc] at h
      cases hs : splitChar sep cs with
      | nil => exact absurd hs (splitChar_ne_nil sep cs)
      | cons t2 ts2 =>
        rw [hs] at h
        rcases List.mem_cons.mp h with h | h
        · subst h
          intro hmem
          rcases List.mem_cons.mp hmem with hmem | hmem
          · exact hc hmem.symm
          · exact ih t2 (by rw [hs]; exact List.mem_cons_self t2 ts2) hmem
        · exact ih x (by rw [hs]; exact List.mem_cons_of_mem t2 h)

theorem processComps_append (xs ys : List Str) :
    ∀ stack, processComps stack (xs ++ ys) = processComps (processComps stack xs) ys := by
  induction xs with
  | nil => intro stack; rfl
  | cons c rest ih =>
    intro stack
    by_cases h1 : c = [] ∨ c = ['.']
    · rw [List.cons_append, processComps, if_pos h1, processComps, if_pos h1]
      exact ih stack
    · by_cases h2 : c = ['.', '.']
      · rw [List.cons_append, processComps, if_neg h1, if_pos h2,
          processComps, if_neg h1, if_pos h2]
        exact ih stack.dropLast
      · rw [List.cons_append, processComps, if_neg h1, if_neg h2,
          processComps, if_neg h1, if_neg h2]
        exact ih (stack ++ [c])

theorem processComps_clean (comps : List Str) (hc : ∀ c ∈ comps, '/' ∉ c) :
    ∀ stack, (∀ c ∈ stack, CleanComp c) → ∀ c ∈ processComps stack comps, CleanComp c := by
  induction comps with
  | nil => intro stack hs c h; exact hs c h
  | cons c rest ih =>
    intro stack hs x hx
    have hcrest : ∀ c2 ∈ rest, '/' ∉ c2 := fun c2 h2 => hc c2 (List.mem_cons_of_mem c h2)
    by_cases h1 : c = [] ∨ c = ['.']
    · rw [processComps, if_pos h1] at hx
      exact ih hcrest stack hs x hx
    · by_cases h2 : c = ['.', '.']
      · rw [processComps, if_neg h1, if_pos h2] at hx
        exact ih hcrest stack.dropLast
          (fun c2 hc2 => hs c2 ((List.dropLast_sublist stack).subset hc2)) x hx
      · rw [processComps, if_neg h1, if_neg h2] at hx
        refine ih hcrest (stack ++ [c]) ?_ x hx
        intro c2 hc2
        rcases List.mem_append.mp hc2 with hc2 | hc2
        · exact hs c2 hc2
        · have hcc : c2 = c := by simpa using hc2
          subst hcc
          push_neg at h1
          exact ⟨h1.1, h1.2, h2, hc c2 (List.mem_cons_self c2 rest)⟩

theorem processComps_clean_id (comps : List Str) (hc : ∀ c ∈ comps, CleanComp c) :
    ∀ stack, processComps stack comps = stack ++ comps := by
  induction comps with
  | nil => intro stack; simp [processComps]
  | cons c rest ih =>
    intro stack
    obtain ⟨hne, hdot, hdots, _⟩ := hc c (List.mem_cons_self c rest)
    rw [processComps, if_neg (by simp [hne, hdot]), if_neg hdots,
      ih (fun c2 h2 => hc c2 (List.mem_cons_of_mem c h2))]
    simp

theorem splitChar_no_sep_eq (sep : Char) (x : Str) (h : sep ∉ x) :
    splitChar sep x = [x] := by
  induction x with
  | nil => rfl
  | cons c cs ih =>
    have hc : c ≠ sep := fun he => h (he ▸ List.mem_cons_self c cs)
    rw [splitChar, if_neg hc, ih (fun hm => h (List.mem_cons_of_mem c hm))]

theorem splitChar_append_sep (sep : Char) (x ys : Str) (h : sep ∉ x) :
    splitChar sep (x ++ sep :: ys) = x :: splitChar sep ys := by
  induction x with
  | nil => simp [splitChar]
  | cons c cs ih =>
    have hc : c ≠ sep := fun he => h (he ▸ List.mem_cons_self c cs)
    rw [List.cons_append, splitChar, if_neg hc,
      ih (fun hm => h (List.mem_cons_of_mem c hm))]

theorem splitChar_append_sep_nil (sep : Char) (x : Str) :
    splitChar sep (x ++ [sep]) = splitChar sep x ++ [[]] := by
  induction x with
  | nil => simp [splitChar]
  | cons c cs ih =>
    by_cases hc : c = sep
    · simp only [List.cons_append, splitChar, if_pos hc, List.append_eq, ih]
    · cases hs : splitChar sep cs with
      | nil => exact absurd hs (splitChar_ne_nil sep cs)
      | cons t0 ts0 =>
        simp only [List.cons_append, splitChar, if_neg hc, List.append_eq, ih, hs,
          List.cons_append]

theorem splitChar_joinSlash (comps : List Str)
    (h : ∀ c ∈ comps, c ≠ [] ∧ '/' ∉ c) (hne : comps ≠ []) :
    splitChar '/' (joinSlash comps) = comps := by
  induction comps with
  | nil => exact absurd rfl hne
  | cons c rest ih =>
    cases rest with
    | nil =>
      rw [joinSlash]
      exact splitChar_no_sep_eq '/' c (h c (List.mem_cons_self c [])).2
    | cons c2 rest2 =>
      rw [joinSlash, splitChar_append_sep '/' c _ (h c (List.mem_cons_self c _)).2,
        ih (fun x hx => h x (List.mem_cons_of_mem c hx)) (by simp)]

theorem mem_of_getLast?_eq (l : Str) (a : Char) (h : l.getLast? = some a) : a ∈ l := by
  rcases List.mem_getLast?_eq_getLast (show a ∈ l.getLast? from h) with ⟨hne, heq⟩
  exact heq ▸ List.getLast_mem hne

theorem joinSlash_getLast (comps : List Str)
    (h : ∀ c ∈ comps, c ≠ [] ∧ '/' ∉ c) (hne : comps ≠ []) :
    ('/' :: joinSlash comps).getLast? ≠ some '/' := by
  induction comps with
  | nil => exact absurd rfl hne
  | cons c rest ih =>
    cases rest with
    | nil =>
      rw [joinSlash]
      obtain ⟨hc, hsl⟩ := h c (List.mem_cons_self c [])
      cases hcc : c with
      | nil => exact absurd hcc hc
      | cons a ca =>
        rw [List.getLast?_cons_cons]
        intro hlast
        exact (hcc ▸ hsl) (hcc ▸ mem_of_getLast?_eq (a :: ca) '/' hlast)
    | cons c2 rest2 =>
      rw [joinSlash]
      have hx : ('/' :: (c ++ '/' :: joinSlash (c2 :: rest2)))
          = ('/' :: c) ++ ('/' :: joinSlash (c2 :: rest2)) := by simp
      rw [hx, List.getLast?_append_of_ne_nil ('/' :: c) (by simp)]
      exact ih (fun x hxm => h x (List.mem_cons_of_mem c hxm)) (by simp)

theorem resolvePath_clean (cwd p : Str) :
    ∀ c ∈ processComps
      (if p.head? = some '/' then [] else processComps [] (splitChar '/' cwd))
      (splitChar '/' p), CleanComp c := by
  have hbase : ∀ c ∈ (if p.head? = some '/' then []
      else processComps [] (splitChar '/' cwd)), CleanComp c := by
    by_cases hp : p.head? = some '/'
    · rw [if_pos hp]
      intro c hc
      exact absurd hc (List.not_mem_nil c)
    · rw [if_neg hp]
      exact processComps_clean (splitChar '/' cwd)
        (fun c hc => splitChar_no_sep '/' cwd c hc) [] (by simp)
  exact processComps_clean (splitChar '/' p)
    (fun c hc => splitChar_no_sep '/' p c hc) _ hbase

theorem getNorm_idem (cwd d : Str) :
    getNormalizedDirectory cwd (getNormalizedDirectory cwd d)
      = getNormalizedDirectory cwd d := by
  have hclean := resolvePath_clean cwd d
  rcases hS : processComps
      (if d.head? = some '/' then [] else processComps [] (splitChar '/' cwd))
      (splitChar '/' d) with _ | ⟨c0, rest0⟩
  · have hres : resolvePath cwd d = ['/'] := by
      unfold resolvePath renderAbs
      rw [hS]
      rfl
    have hnorm : getNormalizedDirectory cwd d = ['/'] := by
      unfold getNormalizedDirectory
      rw [hres]
      rfl
    rw [hnorm]
    rfl
  · set S := c0 :: rest0 with hSdef
    have hSclean : ∀ c ∈ S, CleanComp c := fun c hc => hclean c (hS ▸ hc)
    have hSweak : ∀ c ∈ S, c ≠ [] ∧ '/' ∉ c :=
      fun c hc => ⟨(hSclean c hc).1, (hSclean c hc).2.2.2⟩
    have hSne : S ≠ [] := by simp [hSdef]
    have hres : resolvePath cwd d = '/' :: joinSlash S := by
      unfold resolvePath renderAbs
      rw [hS]
    have hlast := joinSlash_getLast S hSweak hSne
    have hnorm : getNormalizedDirectory cwd d = ('/' :: joinSlash S) ++ ['/'] := by
      unfold getNormalizedDirectory
      rw [hres, if_neg hlast]
    rw [hnorm]
    have hhead : (('/' :: joinSlash S) ++ ['/']).head? = some '/' := by simp
    have hsplit : splitChar '/' (('/' :: joinSlash S) ++ ['/'])
        = [] :: (S ++ [[]]) := by
      have h1 : ('/' :: joinSlash S) ++ ['/'] = '/' :: (joinSlash S ++ ['/']) := by simp
      rw [h1, splitChar, if_pos rfl, splitChar_append_sep_nil,
        splitChar_joinSlash S hSweak hSne]
    have hproc : processComps [] ([] :: (S ++ [[]])) = S := by
      rw [processComps, if_pos (Or.inl rfl), processComps_append,
        processComps_clean_id S hSclean []]
      rw [processComps, if_pos (Or.inl rfl)]
      rfl
    have hres2 : resolvePath cwd (('/' :: joinSlash S) ++ ['/'])
        = '/' :: joinSlash S := by
      unfold resolvePath renderAbs
      rw [if_pos hhead, hsplit, hproc]
    unfold getNormalizedDirectory
    rw [hres2, if_neg hlast]

theorem implicitBuild_ok_iff (st : EngineState) (fsm : FsModel) (cwd d : Str)
    (st2 : EngineState) :
    implicitBuild st fsm cwd d = .ok st2 ↔
      ((getA? st.directoryIndices (getNormalizedDirectory cwd d)).isSome ∧ st = st2)
      ∨ (getA? st.directoryIndices (getNormalizedDirectory cwd d) = none
          ∧ discoveredFiles fsm ≠ []
          ∧ EngineState.mk
              (setA st.directoryIndices (getNormalizedDirectory cwd d) (builtMetadata fsm))
              (setA st.indexedExtensions (getNormalizedDirectory cwd d)
                ((getA? st.indexedExtensions (getNormalizedDirectory cwd d)).getD
                  defaultExtensions))
            = st2) := by
  unfold implicitBuild createIndex
  by_cases hk : (getA? st.directoryIndices (getNormalizedDirectory cwd d)).isNone
  · rw [if_pos hk]
    have hnone : getA? st.directoryIndices (getNormalizedDirectory cwd d) = none :=
      Option.isNone_iff_eq_none.mp hk
    by_cases he : (discoveredFiles fsm).isEmpty
    · rw [if_pos he]
      simp [hnone, List.isEmpty_iff.mp he]
    · rw [if_neg he]
      have hne : discoveredFiles fsm ≠ [] := fun h => he (List.isEmpty_iff.mpr h)
      simp [hnone, hne]
  · rw [if_neg hk]
    have hsome : (getA? st.directoryIndices (getNormalizedDirectory cwd d)).isSome := by
      cases hx : getA? st.directoryIndices (getNormalizedDirectory cwd d) with
      | none => exact absurd (by simp [hx]) hk
      | some v => simp
    have hnn : getA? st.directoryIndices (getNormalizedDirectory cwd d) ≠ none :=
      Option.isSome_iff_ne_none.mp hsome
    simp [hsome, hnn]

theorem searchEngine_ok_iff (st : EngineState) (fsm : FsModel) (cwd q d : Str)
    (r : List SearchResult × EngineState) :
    searchEngine st fsm cwd q d = .ok r ↔
      ∃ st2, implicitBuild st fsm cwd d = .ok st2
        ∧ (getA? st2.directoryIndices (getNormalizedDirectory cwd d)).getD [] ≠ []
        ∧ (assignRanks 0 (sortDesc (scoredEntries
            ((getA? st2.directoryIndices (getNormalizedDirectory cwd d)).getD []) q)),
            st2) = r := by
  unfold searchEngine
  cases hib : implicitBuild st fsm cwd d with
  | error e => simp
  | ok st3 =>
    dsimp only
    unfold searchPure
    by_cases hmd : ((getA? st3.directoryIndices
        (getNormalizedDirectory cwd d)).getD []).isEmpty
    · rw [if_pos hmd]
      simp [List.isEmpty_iff.mp hmd]
    · rw [if_neg hmd]
      have h1 : (getA? st3.directoryIndices (getNormalizedDirectory cwd d)).getD [] ≠ [] :=
        fun he => hmd (List.isEmpty_iff.mpr he)
      simp [h1]

/-- C8: directory-key normalization is idempotent; two directory spellings
with the same normalized key produce the same successful search results
against the same state (they address one `DirectoryIndex`); and the relative
spelling `./src` and the absolute spelling `/abs/path/src` sharing the
working directory `/abs/path` get the identical key. -/
theorem C8_normalization (cwd d p1 p2 query : Str) (st : EngineState) (fsm : FsModel)
    (h : getNormalizedDirectory cwd p1 = getNormalizedDirectory cwd p2) :
    getNormalizedDirectory cwd (getNormalizedDirectory cwd d)
      = getNormalizedDirectory cwd d
    ∧ (∀ r, searchEngine st fsm cwd query p1 = .ok r
        ↔ searchEngine st fsm cwd query p2 = .ok r)
    ∧ getNormalizedDirectory ("/abs/path".toList) ("./src".toList)
        = getNormalizedDirectory ("/abs/path".toList) ("/abs/path/src".toList) := by
  refine ⟨getNorm_idem cwd d, ?_, by decide⟩
  intro r
  rw [searchEngine_ok_iff, searchEngine_ok_iff]
  simp only [implicitBuild_ok_iff, h]

theorem C8_witness :
    searchEngine emptyEngineState emptyFsm ("/abs/path".toList) ("add".toList)
        ("./src".toList) = .ok ([], emptyEngineState)
      ↔ searchEngine emptyEngineState emptyFsm ("/abs/path".toList) ("add".toList)
        ("/abs/path/src".toList) = .ok ([], emptyEngineState) :=
  (C8_normalization ("/abs/path".toList) ("x".toList) ("./src".toList)
    ("/abs/path/src".toList) ("add".toList) emptyEngineState emptyFsm (by decide)).2.1
    ([], emptyEngineState)

end CF
